import Mathlib

/-!
Verification of the retrieval-and-ranking pipeline of the Mental-Health-Chatbot
repository (backend/layers/rag_precision.py and backend/load_kb_enhanced.py).

The Python code is shallowly embedded as follows:
- Python strings are Lean `String`s (or `List Char` for the character-level
  chunkers); Python floats are `ℚ` (the arithmetic in the source is exact
  except for `math.log`, which is transcendental and therefore kept abstract:
  scoring functions take an abstract evaluation `L : ℚ → ℚ` of the logarithm
  and the BM25 state stores the rational *argument* of `math.log`; statements
  about the true IDF value use `Real.log` of that stored argument).
- Python dicts (used only with string keys and insertion-order iteration) are
  association lists `List (String × β)` with first-occurrence lookup and
  in-place update, which coincides with dict semantics because insertion keeps
  keys unique.
- Exceptions are an `Option`/`none` channel; external collaborators (the
  Gemini model and the vector-store rag_system) are parameters returning
  `Option` (with `none` meaning "absent collaborator or raised/unparseable"),
  matching the try/except blocks of the source.
- Python `list.sort(key=..., reverse=True)` is a stable insertion sort by the
  key, descending (Python's sort is stable, also with reverse=True).
- Python's `str.lower` and the regex classes are modelled at ASCII level
  (`[A-Z]`, `[0-9]`, `\w` as alphanumeric-or-underscore, `\s` as the six ASCII
  whitespace characters), which is exact for the regex literals of the source.
-/

/-! ## Character-level helpers shared by the tokenizer and the chunkers -/

/-- ASCII model of the regex class `\s` (Python whitespace). -/
def isSpaceChar (c : Char) : Bool :=
  c = ' ' || c = '\t' || c = '\n' || c = '\r' || c = '\x0b' || c = '\x0c'

/-- ASCII model of the regex class `\w` used by `BM25._tokenize`. -/
def isWordChar (c : Char) : Bool :=
  c.isAlphanum || c = '_'

/-- Regex class `[A-Z]`. -/
def isUpperChar (c : Char) : Bool :=
  'A' ≤ c && c ≤ 'Z'

/-- Regex class `[0-9]`. -/
def isDigitChar (c : Char) : Bool :=
  '0' ≤ c && c ≤ '9'

/-- Regex class `[.!?]` (sentence-ending punctuation). -/
def isSentEnd (c : Char) : Bool :=
  c = '.' || c = '!' || c = '?'

/-- Python `str.lower` (ASCII fragment). -/
def lowerStr (s : String) : String :=
  String.mk (s.data.map Char.toLower)

/-- Length of the leading run satisfying `p` (used for greedy `+` matching). -/
def countWhile (p : Char → Bool) (l : List Char) : ℕ :=
  (l.takeWhile p).length

/-- Splits a character list into its maximal runs of word characters.
`acc` holds the current run, reversed. -/
def wordRunsAux (acc : List Char) : List Char → List (List Char)
  | [] => if acc = [] then [] else [acc.reverse]
  | c :: cs =>
    if isWordChar c then wordRunsAux (c :: acc) cs
    else if acc = [] then wordRunsAux [] cs
    else acc.reverse :: wordRunsAux [] cs

/-- Model of `BM25._tokenize`: lowercase, then `re.findall` with the word pattern, which on
maximal word-character runs is exactly the list of those runs. -/
def tokenize (text : String) : List String :=
  (wordRunsAux [] (lowerStr text).data).map String.mk

/-! ## Association-list model of Python dicts (string keys, insertion order) -/

/-- Dict lookup: value at the first occurrence of key `c`. -/
def dGet (c : String) : List (String × β) → Option β
  | [] => none
  | p :: rest => if p.1 = c then some p.2 else dGet c rest

/-- Dict store `d[c] = v`: replace at the first occurrence of `c`, else append. -/
def dSet (c : String) (v : β) : List (String × β) → List (String × β)
  | [] => [(c, v)]
  | p :: rest => if p.1 = c then (c, v) :: rest else p :: dSet c v rest

theorem dGet_dSet_self (c : String) (v : β) (d : List (String × β)) :
    dGet c (dSet c v d) = some v := by
  induction d with
  | nil => simp [dGet, dSet]
  | cons p rest ih =>
    by_cases h : p.1 = c
    · simp [dGet, dSet, h]
    · simp [dGet, dSet, h, ih]

theorem dGet_dSet_other {c c' : String} (h : c' ≠ c) (v : β) (d : List (String × β)) :
    dGet c' (dSet c v d) = dGet c' d := by
  induction d with
  | nil => simp [dGet, dSet, Ne.symm h]
  | cons p rest ih =>
    by_cases hp : p.1 = c
    · rw [show dSet c v (p :: rest) = (c, v) :: rest by simp [dSet, hp]]
      rw [show dGet c' ((c, v) :: rest) = dGet c' rest by simp [dGet, Ne.symm h]]
      rw [show dGet c' (p :: rest) = dGet c' rest by simp [dGet, hp ▸ Ne.symm h]]
    · rw [show dSet c v (p :: rest) = p :: dSet c v rest by simp [dSet, hp]]
      by_cases hp' : p.1 = c'
      · simp [dGet, hp']
      · simp [dGet, hp', ih]

theorem mem_of_dGet_eq_some {c : String} {v : β} :
    ∀ {d : List (String × β)}, dGet c d = some v → (c, v) ∈ d := by
  intro d
  induction d with
  | nil => simp [dGet]
  | cons p rest ih =>
    by_cases h : p.1 = c
    · rw [show dGet c (p :: rest) = some p.2 by simp [dGet, h]]
      intro hv
      have : p = (c, v) := by
        cases p
        simp only [Prod.mk.injEq]
        exact ⟨h, by simpa using hv⟩
      exact this ▸ List.mem_cons_self _ _
    · rw [show dGet c (p :: rest) = dGet c rest by simp [dGet, h]]
      intro hv
      exact List.mem_cons_of_mem _ (ih hv)

theorem dGet_eq_none_iff (c : String) (d : List (String × β)) :
    dGet c d = none ↔ c ∉ d.map Prod.fst := by
  induction d with
  | nil => simp [dGet]
  | cons p rest ih =>
    by_cases h : p.1 = c
    · simp [dGet, h]
    · simp [dGet, h, ih, Ne.symm h]

/-! ## Stable descending sort (Python list.sort(key=..., reverse=True)) -/

/-- Stable insertion for a descending sort by `key`: the new element passes
every strictly greater element and stops in front of the first element whose
key is ≤ its own, so that among equal keys earlier-inserted (i.e. originally
later) elements stay behind. -/
def insertDesc (key : α → ℚ) (x : α) : List α → List α
  | [] => [x]
  | y :: ys => if key x < key y then y :: insertDesc key x ys else x :: y :: ys

/-- Stable descending sort by `key`, processing the original list from the
right so that original order is preserved among equal keys. -/
def sortDesc (key : α → ℚ) (l : List α) : List α :=
  l.foldr (insertDesc key) []

theorem length_insertDesc (key : α → ℚ) (x : α) (l : List α) :
    (insertDesc key x l).length = l.length + 1 := by
  induction l with
  | nil => rfl
  | cons y ys ih =>
    by_cases h : key x < key y
    · simp [insertDesc, h, ih]
    · simp [insertDesc, h]

theorem length_sortDesc (key : α → ℚ) (l : List α) :
    (sortDesc key l).length = l.length := by
  induction l with
  | nil => rfl
  | cons y ys ih => simp [sortDesc, length_insertDesc, ih.symm]

theorem mem_insertDesc (key : α → ℚ) (x : α) (l : List α) (z : α) :
    z ∈ insertDesc key x l ↔ z = x ∨ z ∈ l := by
  induction l with
  | nil => simp [insertDesc]
  | cons y ys ih =>
    by_cases h : key x < key y
    · simp only [insertDesc, if_pos h, List.mem_cons, ih]
      tauto
    · simp only [insertDesc, if_neg h, List.mem_cons]

theorem mem_sortDesc (key : α → ℚ) (l : List α) (z : α) :
    z ∈ sortDesc key l ↔ z ∈ l := by
  induction l with
  | nil => simp [sortDesc]
  | cons y ys ih =>
    rw [show sortDesc key (y :: ys) = insertDesc key y (sortDesc key ys) from rfl]
    rw [mem_insertDesc, ih, List.mem_cons]

/-! ## BM25 (class BM25 of rag_precision.py) -/

/-- State of the `BM25` object.  `idf` stores, per token, the rational
*argument* `(N - df + 0.5)/(df + 0.5) + 1` of `math.log`; the transcendental
log itself is applied at use sites (an abstract `L : ℚ → ℚ` for computation,
`Real.log` for exact statements), since float logarithms are not exactly
representable. -/
structure BM25State where
  k1 : ℚ
  b : ℚ
  doc_len : List ℕ
  avgdl : ℚ
  doc_freqs : List (List (String × ℕ))
  idf : List (String × ℚ)
  doc_count : ℕ
  initialized : Bool

namespace BM25

/-- Model of `BM25.__init__`: empty, unfitted index. -/
def init (k1 b : ℚ) : BM25State :=
  ⟨k1, b, [], 0, [], [], 0, false⟩

/-- One `Counter` increment. -/
def cntIncr (m : List (String × ℕ)) (t : String) : List (String × ℕ) :=
  match dGet t m with
  | some n => dSet t (n + 1) m
  | none => m ++ [(t, 1)]

/-- Model of `Counter(tokens)`: token frequency table of one document. -/
def counter (tokens : List String) : List (String × ℕ) :=
  tokens.foldl cntIncr []

/-- Document-frequency table: for each document, each distinct token
(`for token in set(tokens)`) is counted once. -/
def dfTable (tokensList : List (List String)) : List (String × ℕ) :=
  tokensList.foldl (fun m tokens => tokens.dedup.foldl cntIncr m) []

/-- The argument of `math.log` in the IDF formula of `BM25.fit`. -/
def idfArg (N df : ℚ) : ℚ :=
  (N - df + 1/2) / (df + 1/2) + 1

/-- Model of `BM25.fit`. -/
def fit (st : BM25State) (documents : List String) : BM25State :=
  let tokensList := documents.map tokenize
  let doc_count := documents.length
  let doc_len := tokensList.map List.length
  let doc_freqs := tokensList.map counter
  let df := dfTable tokensList
  let avgdl : ℚ := if doc_count = 0 then 0 else ((doc_len.sum : ℚ) / (doc_count : ℚ))
  let idf := df.map (fun p => (p.1, idfArg (doc_count : ℚ) (p.2 : ℚ)))
  { st with
    doc_count := doc_count
    doc_len := doc_len
    doc_freqs := doc_freqs
    avgdl := avgdl
    idf := idf
    initialized := true }

/-- Model of `self.idf.get(token, 0)`, with the abstract log `L` applied to the stored
argument. -/
def idfOf (L : ℚ → ℚ) (st : BM25State) (t : String) : ℚ :=
  match dGet t st.idf with
  | some a => L a
  | none => 0

/-- The scoring loop of `BM25.score` over the query tokens (with
multiplicity, as in the source). -/
def scoreCore (L : ℚ → ℚ) (st : BM25State) (query_tokens : List String)
    (freqs : List (String × ℕ)) (dl : ℕ) : ℚ :=
  query_tokens.foldl
    (fun s t =>
      match dGet t freqs with
      | none => s
      | some freq =>
        s + idfOf L st t * ((freq : ℚ) * (st.k1 + 1)) /
          ((freq : ℚ) + st.k1 * (1 - st.b + st.b * (dl : ℚ) / st.avgdl)))
    0

/-- Model of `BM25.score`.  Returns `some 0` on an unfitted index (the guard of the
source), `none` when the fitted-path indexing `self.doc_freqs[doc_index]`
would raise `IndexError` (Python negative indices wrap once). -/
def score (L : ℚ → ℚ) (st : BM25State) (query : String) (doc_index : ℤ) : Option ℚ :=
  if st.initialized = false then some 0
  else
    let j : ℤ := if doc_index < 0 then doc_index + (st.doc_count : ℤ) else doc_index
    if j < 0 then none
    else
      match st.doc_freqs.get? j.toNat, st.doc_len.get? j.toNat with
      | some freqs, some dl => some (scoreCore L st (tokenize query) freqs dl)
      | _, _ => none

/-- Model of `BM25.search`: empty on an unfitted index; otherwise scores every
document index and stable-sorts descending by score, truncating to `top_k`.
`none` models an uncaught exception while scoring. -/
def search (L : ℚ → ℚ) (st : BM25State) (query : String) (top_k : ℕ) :
    Option (List (ℕ × ℚ)) :=
  if st.initialized = false then some []
  else
    match (List.range st.doc_count).mapM
        (fun i => (score L st query (Int.ofNat i)).map (fun s => (i, s))) with
    | some scores => some ((sortDesc (fun p => p.2) scores).take top_k)
    | none => none

end BM25

/-- C1: for every query string and every integer index, `score` on an index
whose `fit` has never been called returns exactly 0.0 without raising, and
`search` on such an index returns the empty list; the unfitted state is never
an error.  (`some` is the no-exception channel of the embedding.) -/
theorem C1_unfitted_score_zero_search_empty
    (L : ℚ → ℚ) (k1 b : ℚ) (q : String) (i : ℤ) (top_k : ℕ) :
    BM25.score L (BM25.init k1 b) q i = some 0 ∧
    BM25.search L (BM25.init k1 b) q top_k = some [] := by
  constructor
  · simp [BM25.score, BM25.init]
  · simp [BM25.search, BM25.init]

/-! ## Document-frequency and IDF facts (BM25.fit) -/

theorem dGet_append (c : String) (m m' : List (String × β)) :
    dGet c (m ++ m') = match dGet c m with
      | some v => some v
      | none => dGet c m' := by
  induction m with
  | nil => simp [dGet]
  | cons p rest ih =>
    by_cases h : p.1 = c
    · simp [dGet, h]
    · simp [dGet, h, ih]

theorem dGet_cntIncr_self (m : List (String × ℕ)) (t : String) :
    dGet t (BM25.cntIncr m t) = some ((dGet t m).getD 0 + 1) := by
  unfold BM25.cntIncr
  cases h : dGet t m with
  | some n => simp [h, dGet_dSet_self]
  | none => simp [h, dGet_append, dGet]

theorem dGet_cntIncr_other {t t' : String} (h : t' ≠ t) (m : List (String × ℕ)) :
    dGet t (BM25.cntIncr m t') = dGet t m := by
  unfold BM25.cntIncr
  cases h' : dGet t' m with
  | some n => simp [dGet_dSet_other (Ne.symm h)]
  | none =>
    simp only [dGet_append]
    cases dGet t m with
    | some v => rfl
    | none => simp [dGet, h]

theorem dGet_foldl_cntIncr_notMem {t : String} :
    ∀ (l : List String) (m : List (String × ℕ)), t ∉ l →
      dGet t (l.foldl BM25.cntIncr m) = dGet t m := by
  intro l
  induction l with
  | nil => simp
  | cons x xs ih =>
    intro m hmem
    rw [List.foldl_cons]
    rw [ih _ (fun h => hmem (List.mem_cons_of_mem _ h))]
    exact dGet_cntIncr_other
      (fun h => hmem (by rw [← h]; exact List.mem_cons_self _ _)) m

theorem dGet_foldl_cntIncr_mem {t : String} :
    ∀ (l : List String) (m : List (String × ℕ)), l.Nodup → t ∈ l →
      dGet t (l.foldl BM25.cntIncr m) = some ((dGet t m).getD 0 + 1) := by
  intro l
  induction l with
  | nil => simp
  | cons x xs ih =>
    intro m hnd hmem
    rw [List.foldl_cons]
    rcases List.mem_cons.mp hmem with h | h
    · subst h
      rw [dGet_foldl_cntIncr_notMem xs _ (List.nodup_cons.mp hnd).1]
      exact dGet_cntIncr_self m t
    · have hne : t ≠ x := fun he => (List.nodup_cons.mp hnd).1 (he ▸ h)
      rw [ih _ (List.nodup_cons.mp hnd).2 h, dGet_cntIncr_other (Ne.symm hne)]

/-- Characterization of the document-frequency table built by `BM25.fit`:
the entry for `t` is the number of documents whose token list contains `t`,
present exactly when that number is positive. -/
theorem dfTable_spec (t : String) :
    ∀ (tl : List (List String)) (m : List (String × ℕ)),
      dGet t (tl.foldl (fun m tokens => tokens.dedup.foldl BM25.cntIncr m) m) =
        match dGet t m with
        | some n => some (n + tl.countP (fun tokens => decide (t ∈ tokens)))
        | none =>
          if tl.countP (fun tokens => decide (t ∈ tokens)) = 0 then none
          else some (tl.countP (fun tokens => decide (t ∈ tokens))) := by
  intro tl
  induction tl with
  | nil =>
    intro m
    cases h : dGet t m <;> simp [h]
  | cons tokens rest ih =>
    intro m
    rw [List.foldl_cons]
    by_cases hmem : t ∈ tokens
    · rw [ih]
      rw [dGet_foldl_cntIncr_mem tokens.dedup m (List.nodup_dedup tokens)
        (List.mem_dedup.mpr hmem)]
      cases h : dGet t m with
      | some n => simp [h, List.countP_cons, hmem]; omega
      | none => simp [h, List.countP_cons, hmem]; omega
    · rw [ih]
      rw [dGet_foldl_cntIncr_notMem tokens.dedup m
        (fun hc => hmem (List.mem_dedup.mp hc))]
      cases h : dGet t m with
      | some n => simp [h, List.countP_cons, hmem]
      | none => simp [h, List.countP_cons, hmem]

theorem dGet_map_value (t : String) (g : ℕ → ℚ) :
    ∀ (m : List (String × ℕ)),
      dGet t (m.map (fun p => (p.1, g p.2))) = (dGet t m).map g := by
  intro m
  induction m with
  | nil => simp [dGet]
  | cons p rest ih =>
    by_cases h : p.1 = t
    · simp [dGet, h]
    · simp [dGet, h, ih]

/-- Core fact behind C7: every entry of the fitted `idf` table stores exactly
the argument `(N - df + 0.5)/(df + 0.5) + 1` for `df` = number of documents
containing the token, and that argument is ≥ 1 (so its true logarithm is
nonnegative: the smoothed IDF of this source is never negative). -/
theorem idf_entry_spec (k1 b : ℚ) (docs : List String) (t : String) (a : ℚ)
    (h : dGet t (BM25.fit (BM25.init k1 b) docs).idf = some a) :
    a = BM25.idfArg (docs.length : ℚ)
        ((docs.countP (fun d => decide (t ∈ tokenize d))) : ℚ) ∧
    (1 : ℚ) ≤ a := by
  have hfit : (BM25.fit (BM25.init k1 b) docs).idf =
      (BM25.dfTable (docs.map tokenize)).map
        (fun p => (p.1, BM25.idfArg ((docs.length : ℚ)) ((p.2 : ℕ) : ℚ))) := rfl
  rw [hfit, dGet_map_value t (fun n : ℕ => BM25.idfArg ((docs.length : ℚ)) ((n : ℕ) : ℚ))] at h
  have hdf := dfTable_spec t (docs.map tokenize) []
  rw [show BM25.dfTable (docs.map tokenize) =
      (docs.map tokenize).foldl (fun m tokens => tokens.dedup.foldl BM25.cntIncr m) []
    from rfl] at h
  rw [hdf] at h
  rw [show dGet t ([] : List (String × ℕ)) = none from rfl] at h
  set cnt := (docs.map tokenize).countP (fun tokens => decide (t ∈ tokens)) with hcnt
  by_cases hz : cnt = 0
  · rw [if_pos hz] at h
    simp at h
  · rw [if_neg hz] at h
    simp only [Option.map_some'] at h
    have hcntP : cnt = docs.countP (fun d => decide (t ∈ tokenize d)) := by
      rw [hcnt, List.countP_map]
      rfl
    have h1 : 1 ≤ cnt := Nat.one_le_iff_ne_zero.mpr hz
    have hle : cnt ≤ docs.length := by
      rw [hcntP]
      exact List.countP_le_length _
    have ha := Option.some.inj h
    constructor
    · rw [← ha, hcntP]
    · rw [← ha]
      unfold BM25.idfArg
      have hden : (0 : ℚ) < (cnt : ℚ) + 1/2 := by positivity
      have hnum : (0 : ℚ) ≤ (docs.length : ℚ) - (cnt : ℚ) + 1/2 := by
        have : (cnt : ℚ) ≤ (docs.length : ℚ) := by exact_mod_cast hle
        linarith
      have := div_nonneg hnum (le_of_lt hden)
      linarith

/-- C7 counterexample clause: the claim asserts that for some corpus a token
present in the majority of documents has negative IDF; in fact no fitted
corpus has any token with negative (true, `Real.log`) IDF at all. -/
theorem C7_counterexample_no_negative_idf :
    ¬ ∃ (k1 b : ℚ) (docs : List String) (t : String) (a : ℚ),
        dGet t (BM25.fit (BM25.init k1 b) docs).idf = some a ∧
        (docs.length : ℚ) / 2 < (docs.countP (fun d => decide (t ∈ tokenize d)) : ℚ) ∧
        Real.log ((a : ℚ) : ℝ) < 0 := by
  rintro ⟨k1, b, docs, t, a, h, _, hneg⟩
  have hs := idf_entry_spec k1 b docs t a h
  have h1 : (1 : ℝ) ≤ ((a : ℚ) : ℝ) := by exact_mod_cast hs.2
  exact absurd (Real.log_nonneg h1) (not_le.mpr hneg)

/-- C7 (amended): after `fit` on a corpus of `N` documents the stored IDF of
every indexed token equals `ln((N - df + 0.5)/(df + 0.5) + 1)` with `df` the
number of documents containing the token — but this value is always
nonnegative, never negative, because the argument of the log is ≥ 1. -/
theorem C7_idf_formula_and_nonneg (k1 b : ℚ) (docs : List String) (t : String)
    (a : ℚ) (h : dGet t (BM25.fit (BM25.init k1 b) docs).idf = some a) :
    a = BM25.idfArg (docs.length : ℚ)
        ((docs.countP (fun d => decide (t ∈ tokenize d))) : ℚ) ∧
    0 ≤ Real.log ((a : ℚ) : ℝ) := by
  have hs := idf_entry_spec k1 b docs t a h
  exact ⟨hs.1, Real.log_nonneg (by exact_mod_cast hs.2)⟩

/-- Witness for C7: on the corpus ["a b", "a c"] the token "a" occurs in both
documents (df = N = 2), its stored log-argument is (2 - 2 + 0.5)/(2.5) + 1 =
6/5, and its IDF ln(6/5) is nonnegative. -/
theorem C7_witness :
    dGet "a" (BM25.fit (BM25.init (3/2) (3/4)) ["a b", "a c"]).idf = some (6/5) ∧
    ((6/5 : ℚ) = BM25.idfArg ((["a b", "a c"].length : ℕ) : ℚ)
        ((["a b", "a c"].countP (fun d => decide ("a" ∈ tokenize d))) : ℚ) ∧
      0 ≤ Real.log (((6/5 : ℚ) : ℚ) : ℝ)) :=
  ⟨by with_unfolding_all decide, C7_idf_formula_and_nonneg (3/2) (3/4) ["a b", "a c"] "a" (6/5) (by with_unfolding_all decide)⟩

/-! ## C8: ordering of BM25.search on a fitted corpus -/

theorem mapM_eq_some_of_forall (f : α → Option β) (g : α → β) :
    ∀ (l : List α), (∀ x ∈ l, f x = some (g x)) → l.mapM f = some (l.map g) := by
  intro l
  induction l with
  | nil => intro _; rfl
  | cons x xs ih =>
    intro h
    rw [List.mapM_cons, h x (List.mem_cons_self _ _),
      ih (fun y hy => h y (List.mem_cons_of_mem _ hy))]
    rfl

theorem get?_eq_some_getD {l : List α} {i : ℕ} (h : i < l.length) (d : α) :
    l.get? i = some (l.getD i d) := by
  cases hx : l.get? i with
  | none => exact absurd (List.get?_eq_none.mp hx) (Nat.not_le.mpr h)
  | some x => rw [List.getD_eq_get?, hx]; rfl

theorem fit_doc_freqs_length (st : BM25State) (docs : List String) :
    (BM25.fit st docs).doc_freqs.length = docs.length := by
  simp [BM25.fit]

theorem fit_doc_len_length (st : BM25State) (docs : List String) :
    (BM25.fit st docs).doc_len.length = docs.length := by
  simp [BM25.fit]

/-- On a fitted index, scoring a valid nonnegative document index never
raises and runs the scoring loop on that document's data. -/
theorem score_fit_valid (L : ℚ → ℚ) (st : BM25State) (docs : List String)
    (q : String) (i : ℕ) (hi : i < docs.length) :
    BM25.score L (BM25.fit st docs) q (Int.ofNat i) =
      some (BM25.scoreCore L (BM25.fit st docs) (tokenize q)
        ((BM25.fit st docs).doc_freqs.getD i [])
        ((BM25.fit st docs).doc_len.getD i 0)) := by
  have hinit : (BM25.fit st docs).initialized = true := rfl
  have hneg : ¬ (Int.ofNat i < 0) := not_lt.mpr (Int.ofNat_nonneg i)
  have h1 : (BM25.fit st docs).doc_freqs.get? i =
      some ((BM25.fit st docs).doc_freqs.getD i []) :=
    get?_eq_some_getD (by rw [fit_doc_freqs_length]; exact hi) _
  have h2 : (BM25.fit st docs).doc_len.get? i =
      some ((BM25.fit st docs).doc_len.getD i 0) :=
    get?_eq_some_getD (by rw [fit_doc_len_length]; exact hi) _
  unfold BM25.score
  rw [hinit]
  simp only [Bool.true_eq_false, if_false, if_neg hneg]
  have htn : (Int.ofNat i).toNat = i := rfl
  rw [htn, h1, h2]

/-- The lexicographic relation that C8 asserts of consecutive search results:
strictly smaller score, or equal scores with the earlier document index
first. -/
def lexDesc (p q : ℕ × ℚ) : Prop :=
  q.2 < p.2 ∨ (p.2 = q.2 ∧ p.1 < q.1)

theorem pairwise_insertDesc_lexDesc (x : ℕ × ℚ) (l : List (ℕ × ℚ))
    (hl : l.Pairwise lexDesc)
    (hx : ∀ y ∈ l, y.2 = x.2 → x.1 < y.1) :
    (insertDesc (fun p => p.2) x l).Pairwise lexDesc := by
  induction l with
  | nil => simp [insertDesc, List.pairwise_singleton]
  | cons y ys ih =>
    rcases List.pairwise_cons.mp hl with ⟨hy, hys⟩
    by_cases h : x.2 < y.2
    · rw [show insertDesc (fun p => p.2) x (y :: ys) =
          y :: insertDesc (fun p => p.2) x ys by simp [insertDesc, h]]
      refine List.pairwise_cons.mpr ⟨?_, ih hys
        (fun z hz hz2 => hx z (List.mem_cons_of_mem _ hz) hz2)⟩
      intro z hz
      rcases (mem_insertDesc _ x ys z).mp hz with rfl | hzys
      · exact Or.inl h
      · exact hy z hzys
    · rw [show insertDesc (fun p => p.2) x (y :: ys) = x :: y :: ys by
        simp [insertDesc, h]]
      refine List.pairwise_cons.mpr ⟨?_, hl⟩
      intro z hz
      have hyx : y.2 ≤ x.2 := le_of_not_lt h
      rcases List.mem_cons.mp hz with rfl | hzys
      · rcases lt_or_eq_of_le hyx with hlt | heq
        · exact Or.inl hlt
        · exact Or.inr ⟨heq.symm, hx z (List.mem_cons_self _ _) heq⟩
      · rcases hy z hzys with hlt | ⟨heq, _⟩
        · exact Or.inl (lt_of_lt_of_le hlt hyx)
        · rcases lt_or_eq_of_le hyx with hlt' | heq'
          · exact Or.inl (heq ▸ hlt')
          · exact Or.inr ⟨heq'.symm.trans heq,
              hx z (List.mem_cons_of_mem _ hzys) (heq.symm.trans heq')⟩
  

theorem pairwise_sortDesc_of_incr (l : List (ℕ × ℚ))
    (h : l.Pairwise (fun p q => p.1 < q.1)) :
    (sortDesc (fun p => p.2) l).Pairwise lexDesc := by
  induction l with
  | nil => simp [sortDesc]
  | cons a rest ih =>
    rcases List.pairwise_cons.mp h with ⟨ha, hrest⟩
    rw [show sortDesc (fun p : ℕ × ℚ => p.2) (a :: rest) =
        insertDesc (fun p => p.2) a (sortDesc (fun p => p.2) rest) from rfl]
    refine pairwise_insertDesc_lexDesc a _ (ih hrest) ?_
    intro y hy _
    exact ha y ((mem_sortDesc _ rest y).mp hy)

/-- C8: for every fitted corpus, query and top_k, search returns (without
raising) at most top_k (doc_index, score) pairs, ordered by score descending
with ties broken by the smaller (earlier) document index first. -/
theorem C8_search_order (L : ℚ → ℚ) (k1 b : ℚ) (docs : List String)
    (query : String) (top_k : ℕ) :
    ∃ l, BM25.search L (BM25.fit (BM25.init k1 b) docs) query top_k = some l ∧
      l.length ≤ top_k ∧
      l.Pairwise (fun p q => q.2 < p.2 ∨ (p.2 = q.2 ∧ p.1 < q.1)) := by
  set st := BM25.fit (BM25.init k1 b) docs with hst
  have hinit : st.initialized = true := rfl
  have hcount : st.doc_count = docs.length := rfl
  have hmm : (List.range st.doc_count).mapM
      (fun i => (BM25.score L st query (Int.ofNat i)).map (fun s => (i, s))) =
      some ((List.range st.doc_count).map
        (fun i => (i, BM25.scoreCore L st (tokenize query)
          (st.doc_freqs.getD i []) (st.doc_len.getD i 0)))) := by
    apply mapM_eq_some_of_forall
    intro i hi
    rw [hst, score_fit_valid L (BM25.init k1 b) docs query i
      (by rw [← hcount]; exact List.mem_range.mp hi)]
    rfl
  refine ⟨(sortDesc (fun p => p.2) ((List.range st.doc_count).map
      (fun i => (i, BM25.scoreCore L st (tokenize query)
        (st.doc_freqs.getD i []) (st.doc_len.getD i 0))))).take top_k, ?_, ?_, ?_⟩
  · unfold BM25.search
    rw [hinit]
    simp only [Bool.true_eq_false, if_false]
    rw [hmm]
  · exact List.length_take_le _ _
  · apply List.Pairwise.sublist (List.take_sublist _ _)
    apply pairwise_sortDesc_of_incr
    apply List.Pairwise.map
    · intro p q hpq
      exact hpq
    · exact List.pairwise_lt_range _

/-! ## Hybrid retrieval (RAGPrecisionBoost.hybrid_search) -/

/-- A result/metadata dict as produced by the external rag_system or stored
in `_documents_metadata`: the keys the source reads, with `Option` for
`.get` defaults. -/
structure SemDoc where
  content : String
  source_file : Option String
  page : Option ℤ
  book_title : Option String
deriving DecidableEq

/-- The empty metadata dict used when `doc_idx` is out of range. -/
def emptySemDoc : SemDoc := ⟨"", none, none, none⟩

/-- One value of the `results` dict inside `hybrid_search`. -/
structure Entry where
  content : String
  semantic_score : ℚ
  keyword_score : ℚ
  metadata : SemDoc
deriving DecidableEq

/-- The `RetrievalResult` dataclass. -/
structure RetrievalResult where
  content : String
  source : String
  page : Option ℤ
  book_title : String
  relevance_score : ℚ
  retrieval_method : String
deriving DecidableEq

/-- Body of the semantic loop of `hybrid_search` for one enumerated result:
rank-normalized score `1 - i/n`, weighted, inserted or overwritten. -/
def semStep (semW : ℚ) (n : ℕ) (d : List (String × Entry)) (i : ℕ) (r : SemDoc) :
    List (String × Entry) :=
  let score : ℚ := 1 - (i : ℚ) / (n : ℚ)
  match dGet r.content d with
  | none => dSet r.content ⟨r.content, score * semW, 0, r⟩ d
  | some e => dSet r.content { e with semantic_score := score * semW } d

/-- The semantic loop of `hybrid_search` (`for i, result in
enumerate(semantic_results)`), with `i` the running index and `n` the
length of the full semantic result list. -/
def semLoopAux (semW : ℚ) (n : ℕ) : ℕ → List SemDoc → List (String × Entry) →
    List (String × Entry)
  | _, [], d => d
  | i, r :: rest, d => semLoopAux semW n (i + 1) rest (semStep semW n d i r)

def semLoop (semW : ℚ) (lst : List SemDoc) (d : List (String × Entry)) :
    List (String × Entry) :=
  semLoopAux semW lst.length 0 lst d

/-- Model of `max(r[1] for r in bm25_results) if bm25_results else 1`. -/
def bmMaxScore (l : List (ℕ × ℚ)) : ℚ :=
  match l with
  | [] => 1
  | x :: xs => (xs.map Prod.snd).foldl max x.2

/-- Body of the BM25 loop of `hybrid_search` for one (doc_idx, score) pair:
skip out-of-range indices, normalize by the batch maximum (0 when the
maximum is 0, the Python falsy test), weight and insert/overwrite. -/
def kwStep (kwW maxB : ℚ) (cache : List String) (metas : List SemDoc)
    (d : List (String × Entry)) (p : ℕ × ℚ) : List (String × Entry) :=
  if p.1 < cache.length then
    let content := cache.getD p.1 ""
    let normalized : ℚ := if maxB = 0 then 0 else p.2 / maxB
    match dGet content d with
    | none => dSet content ⟨content, 0, normalized * kwW, metas.getD p.1 emptySemDoc⟩ d
    | some e => dSet content { e with keyword_score := normalized * kwW } d
  else d

def kwLoop (kwW : ℚ) (cache : List String) (metas : List SemDoc)
    (bmResults : List (ℕ × ℚ)) (d : List (String × Entry)) :
    List (String × Entry) :=
  bmResults.foldl (kwStep kwW (bmMaxScore bmResults) cache metas) d

/-- Step 3 of `hybrid_search`: turn the `results` dict (in insertion order)
into `RetrievalResult`s whose relevance is the sum of the two channel
scores. -/
def combineDict (d : List (String × Entry)) : List RetrievalResult :=
  d.map (fun p =>
    ⟨p.2.content, p.2.metadata.source_file.getD "unknown", p.2.metadata.page,
      p.2.metadata.book_title.getD "Unknown",
      p.2.semantic_score + p.2.keyword_score, "hybrid"⟩)

/-- The `results` dict of `hybrid_search` after both channel loops.
`ragSys` is the rag_system collaborator (`none`: absent); its inner `none`
is a raised exception, caught by the source's try/except with the dict left
as it was. -/
def hybridDict (ragSys : Option (String → ℕ → Option (List SemDoc)))
    (L : ℚ → ℚ) (bm : BM25State) (cache : List String) (metas : List SemDoc)
    (query : String) (k : ℕ) (semW kwW : ℚ) : List (String × Entry) :=
  let d1 : List (String × Entry) :=
    match ragSys with
    | none => []
    | some f =>
      match f query (k * 2) with
      | none => []
      | some semantic_results => semLoop semW semantic_results []
  if bm.initialized then
    match BM25.search L bm query (k * 2) with
    | none => d1
    | some bm25_results => kwLoop kwW cache metas bm25_results d1
  else d1

/-- Model of `RAGPrecisionBoost.hybrid_search`: build the merged dict, combine the
channel scores, stable-sort descending and truncate to `k`. -/
def hybrid_search (ragSys : Option (String → ℕ → Option (List SemDoc)))
    (L : ℚ → ℚ) (bm : BM25State) (cache : List String) (metas : List SemDoc)
    (query : String) (k : ℕ) (semW kwW : ℚ) : List RetrievalResult :=
  (sortDesc (fun r => r.relevance_score)
    (combineDict (hybridDict ragSys L bm cache metas query k semW kwW))).take k

/-! ### Lemmas about the two hybrid loops -/

theorem semLoopAux_notMem (semW : ℚ) (n : ℕ) {c : String} :
    ∀ (lst : List SemDoc) (i : ℕ) (d : List (String × Entry)),
      c ∉ lst.map SemDoc.content →
      dGet c (semLoopAux semW n i lst d) = dGet c d := by
  intro lst
  induction lst with
  | nil => intro i d _; rfl
  | cons r rest ih =>
    intro i d hmem
    rw [show semLoopAux semW n i (r :: rest) d =
        semLoopAux semW n (i + 1) rest (semStep semW n d i r) from rfl]
    rw [ih _ _ (fun h => hmem (List.mem_cons_of_mem _ h))]
    have hne : r.content ≠ c := fun h =>
      hmem (h ▸ List.mem_map_of_mem SemDoc.content (List.mem_cons_self _ _))
    unfold semStep
    cases dGet r.content d with
    | none => exact dGet_dSet_other (Ne.symm hne) _ d
    | some e => exact dGet_dSet_other (Ne.symm hne) _ d

theorem semLoopAux_at (semW : ℚ) (n : ℕ) {c : String} :
    ∀ (lst : List SemDoc) (j : ℕ) (sd : SemDoc) (i : ℕ) (d : List (String × Entry)),
      (lst.map SemDoc.content).Nodup →
      lst.get? j = some sd → sd.content = c → dGet c d = none →
      dGet c (semLoopAux semW n i lst d) =
        some ⟨c, (1 - ((i + j : ℕ) : ℚ) / (n : ℚ)) * semW, 0, sd⟩ := by
  intro lst
  induction lst with
  | nil => intro j sd i d _ hj; simp at hj
  | cons r rest ih =>
    intro j sd i d hnd hj hc hd
    rcases List.nodup_cons.mp hnd with ⟨hnotin, hndrest⟩
    match j with
    | 0 =>
      have hr : r = sd := by simpa using hj
      subst hr
      rw [show semLoopAux semW n i (r :: rest) d =
          semLoopAux semW n (i + 1) rest (semStep semW n d i r) from rfl]
      rw [semLoopAux_notMem semW n rest (i + 1) _ (hc ▸ hnotin)]
      unfold semStep
      rw [hc, hd]
      simpa using dGet_dSet_self c _ d
    | Nat.succ j' =>
      have hjrest : rest.get? j' = some sd := by simpa using hj
      have hcrest : c ∈ rest.map SemDoc.content := by
        rw [← hc]
        exact List.mem_map_of_mem SemDoc.content (List.get?_mem hjrest)
      have hne : r.content ≠ c := fun h => hnotin (h ▸ hcrest)
      rw [show semLoopAux semW n i (r :: rest) d =
          semLoopAux semW n (i + 1) rest (semStep semW n d i r) from rfl]
      have hd' : dGet c (semStep semW n d i r) = none := by
        unfold semStep
        cases dGet r.content d with
        | none => rw [dGet_dSet_other (Ne.symm hne) _ d]; exact hd
        | some e => rw [dGet_dSet_other (Ne.symm hne) _ d]; exact hd
      rw [ih j' sd (i + 1) _ hndrest hjrest hc hd']
      rw [show i + 1 + j' = i + (j' + 1) from by omega]

theorem bool_and_split {a b : Bool} : (a && b) = true ↔ a = true ∧ b = true := by
  cases a <;> cases b <;> simp

theorem kwLoop_foldl_notMem (kwW maxB : ℚ) (cache : List String)
    (metas : List SemDoc) {c : String} :
    ∀ (l : List (ℕ × ℚ)) (d : List (String × Entry)),
      l.filter (fun p => decide (p.1 < cache.length) && (cache.getD p.1 "" == c)) = [] →
      dGet c (l.foldl (kwStep kwW maxB cache metas) d) = dGet c d := by
  intro l
  induction l with
  | nil => intro d _; rfl
  | cons p t ih =>
    intro d hf
    rw [List.filter_cons] at hf
    have hf' : (decide (p.1 < cache.length) && (cache.getD p.1 "" == c)) = false ∧
        t.filter (fun p => decide (p.1 < cache.length) && (cache.getD p.1 "" == c)) = [] := by
      by_cases hp : (decide (p.1 < cache.length) && (cache.getD p.1 "" == c)) = true
      · rw [if_pos hp] at hf
        exact absurd hf (List.cons_ne_nil _ _)
      · rw [if_neg hp] at hf
        exact ⟨Bool.not_eq_true _ ▸ hp, hf⟩
    rw [List.foldl_cons, ih _ hf'.2]
    unfold kwStep
    by_cases hr : p.1 < cache.length
    · have hcc : cache.getD p.1 "" ≠ c := by
        intro he
        have hT : (decide (p.1 < cache.length) && (cache.getD p.1 "" == c)) = true :=
          bool_and_split.mpr ⟨decide_eq_true hr, beq_iff_eq.mpr he⟩
        exact Bool.noConfusion (hT.symm.trans hf'.1)
      simp only [if_pos hr]
      cases dGet (cache.getD p.1 "") d with
      | none => exact dGet_dSet_other (Ne.symm hcc) _ d
      | some e => exact dGet_dSet_other (Ne.symm hcc) _ d
    · simp only [if_neg hr]

theorem kwLoop_foldl_unique (kwW maxB : ℚ) (cache : List String)
    (metas : List SemDoc) {c : String} :
    ∀ (l : List (ℕ × ℚ)) (d : List (String × Entry)) (idx : ℕ) (s : ℚ),
      l.filter (fun p => decide (p.1 < cache.length) && (cache.getD p.1 "" == c)) =
        [(idx, s)] →
      dGet c (l.foldl (kwStep kwW maxB cache metas) d) =
        some (match dGet c d with
          | some e => { e with keyword_score := (if maxB = 0 then 0 else s / maxB) * kwW }
          | none => ⟨c, 0, (if maxB = 0 then 0 else s / maxB) * kwW,
              metas.getD idx emptySemDoc⟩) := by
  intro l
  induction l with
  | nil => intro d idx s hf; simp at hf
  | cons p t ih =>
    intro d idx s hf
    rw [List.filter_cons] at hf
    by_cases hp : (decide (p.1 < cache.length) && (cache.getD p.1 "" == c)) = true
    · rw [if_pos hp] at hf
      have hps : p = (idx, s) := (List.cons.injEq _ _ _ _ ▸ hf).1
      have hft : t.filter
          (fun p => decide (p.1 < cache.length) && (cache.getD p.1 "" == c)) = [] :=
        (List.cons.injEq _ _ _ _ ▸ hf).2
      have hrange : p.1 < cache.length := by
        have := bool_and_split.mp hp
        exact of_decide_eq_true this.1
      have hcc : cache.getD p.1 "" = c := by
        have := bool_and_split.mp hp
        exact eq_of_beq this.2
      rw [List.foldl_cons, kwLoop_foldl_notMem kwW maxB cache metas t _ hft]
      subst hps
      unfold kwStep
      simp only [if_pos hrange, hcc]
      cases hd : dGet c d with
      | none => exact dGet_dSet_self _ _ _
      | some e => exact dGet_dSet_self _ _ _
    · rw [if_neg hp] at hf
      rw [List.foldl_cons]
      have hstep : dGet c (kwStep kwW maxB cache metas d p) = dGet c d := by
        unfold kwStep
        by_cases hr : p.1 < cache.length
        · have hcc : cache.getD p.1 "" ≠ c := by
            intro he
            exact hp (bool_and_split.mpr ⟨decide_eq_true hr, beq_iff_eq.mpr he⟩)
          simp only [if_pos hr]
          cases dGet (cache.getD p.1 "") d with
          | none => exact dGet_dSet_other (Ne.symm hcc) _ d
          | some e => exact dGet_dSet_other (Ne.symm hcc) _ d
        · simp only [if_neg hr]
      rw [ih _ idx s hf, hstep]

theorem le_foldl_max (l : List ℚ) : ∀ b : ℚ, b ≤ l.foldl max b := by
  induction l with
  | nil => intro b; exact le_refl b
  | cons x xs ih =>
    intro b
    rw [List.foldl_cons]
    exact le_trans (le_max_left b x) (ih (max b x))

theorem bmMaxScore_nonneg (l : List (ℕ × ℚ)) (h : ∀ p ∈ l, 0 ≤ p.2) :
    0 ≤ bmMaxScore l := by
  cases l with
  | nil => norm_num [bmMaxScore]
  | cons x xs =>
    exact le_trans (h x (List.mem_cons_self _ _)) (le_foldl_max _ x.2)

/-- C2: a document retrieved by both channels of `hybrid_search` gets the
sum of its two weighted normalized channel scores as combined relevance,
hence at least the max of the two, and strictly more than either when both
are positive.  Hypotheses: the rag collaborator returns `semList` (with
distinct contents, as result sets), BM25 is fitted and returns `bmResults`
(with nonnegative scores, as BM25 produces), the document `c` sits at rank
`i` of the semantic results and is the unique in-cache BM25 hit `(idx, s)`,
and the two channel weights are nonnegative (defaults 0.7 / 0.3). -/
theorem C2_hybrid_merge_boost
    (f : String → ℕ → Option (List SemDoc)) (L : ℚ → ℚ) (bm : BM25State)
    (cache : List String) (metas : List SemDoc) (query : String) (k : ℕ)
    (semW kwW : ℚ) (semList : List SemDoc) (bmResults : List (ℕ × ℚ))
    (c : String) (i : ℕ) (sd : SemDoc) (idx : ℕ) (s : ℚ)
    (hrag : f query (k * 2) = some semList)
    (hbm : bm.initialized = true)
    (hsearch : BM25.search L bm query (k * 2) = some bmResults)
    (hnd : (semList.map SemDoc.content).Nodup)
    (hget : semList.get? i = some sd) (hcont : sd.content = c)
    (hfilter : bmResults.filter
        (fun p => decide (p.1 < cache.length) && (cache.getD p.1 "" == c)) = [(idx, s)])
    (hsemW : 0 ≤ semW) (hkwW : 0 ≤ kwW)
    (hpos : ∀ p ∈ bmResults, 0 ≤ p.2) :
    ∃ r ∈ combineDict (hybridDict (some f) L bm cache metas query k semW kwW),
      r.content = c ∧
      r.relevance_score =
        (1 - (i : ℚ) / (semList.length : ℚ)) * semW +
          (if bmMaxScore bmResults = 0 then 0 else s / bmMaxScore bmResults) * kwW ∧
      max ((1 - (i : ℚ) / (semList.length : ℚ)) * semW)
          ((if bmMaxScore bmResults = 0 then 0 else s / bmMaxScore bmResults) * kwW) ≤
        r.relevance_score ∧
      (0 < (1 - (i : ℚ) / (semList.length : ℚ)) * semW →
        0 < (if bmMaxScore bmResults = 0 then 0 else s / bmMaxScore bmResults) * kwW →
        (1 - (i : ℚ) / (semList.length : ℚ)) * semW < r.relevance_score ∧
          (if bmMaxScore bmResults = 0 then 0 else s / bmMaxScore bmResults) * kwW <
            r.relevance_score) := by
  set semPart : ℚ := (1 - (i : ℚ) / (semList.length : ℚ)) * semW with hsemPart
  set kwPart : ℚ :=
    (if bmMaxScore bmResults = 0 then 0 else s / bmMaxScore bmResults) * kwW with hkwPart
  have hd1 : dGet c (semLoop semW semList []) = some ⟨c, semPart, 0, sd⟩ := by
    have := semLoopAux_at semW semList.length semList i sd 0 [] hnd hget hcont rfl
    rw [show (0 + i : ℕ) = i from by omega] at this
    exact this
  have hdict : hybridDict (some f) L bm cache metas query k semW kwW =
      kwLoop kwW cache metas bmResults (semLoop semW semList []) := by
    unfold hybridDict
    simp only [hrag, hbm, hsearch, if_true]
  have hd2 : dGet c (hybridDict (some f) L bm cache metas query k semW kwW) =
      some ⟨c, semPart, kwPart, sd⟩ := by
    rw [hdict]
    unfold kwLoop
    rw [kwLoop_foldl_unique kwW (bmMaxScore bmResults) cache metas bmResults _ idx s
      hfilter, hd1]
  have hmem : (c, (⟨c, semPart, kwPart, sd⟩ : Entry)) ∈
      hybridDict (some f) L bm cache metas query k semW kwW :=
    mem_of_dGet_eq_some hd2
  refine ⟨⟨c, sd.source_file.getD "unknown", sd.page, sd.book_title.getD "Unknown",
    semPart + kwPart, "hybrid"⟩, ?_, rfl, rfl, ?_, ?_⟩
  · unfold combineDict
    exact List.mem_map_of_mem _ hmem
  · obtain ⟨hin, -⟩ := List.get?_eq_some.mp hget
    have hsemPos : 0 ≤ semPart := by
      rw [hsemPart]
      apply mul_nonneg _ hsemW
      have hn : (0 : ℚ) < (semList.length : ℚ) := by
        exact_mod_cast Nat.zero_lt_of_lt hin
      have : (i : ℚ) / (semList.length : ℚ) ≤ 1 := by
        rw [div_le_one hn]
        exact_mod_cast le_of_lt hin
      linarith
    have hkwPos : 0 ≤ kwPart := by
      rw [hkwPart]
      apply mul_nonneg _ hkwW
      by_cases hz : bmMaxScore bmResults = 0
      · simp [hz]
      · simp only [if_neg hz]
        have hs : 0 ≤ s := by
          have hmemf : (idx, s) ∈ bmResults := by
            have : (idx, s) ∈ bmResults.filter
                (fun p => decide (p.1 < cache.length) && (cache.getD p.1 "" == c)) := by
              rw [hfilter]; exact List.mem_cons_self _ _
            exact List.mem_of_mem_filter this
          exact hpos _ hmemf
        exact div_nonneg hs (bmMaxScore_nonneg _ hpos)
    exact max_le (le_add_of_nonneg_right hkwPos) (le_add_of_nonneg_left hsemPos)
  · intro ha hb
    constructor
    · exact lt_add_of_pos_right _ hb
    · exact lt_add_of_pos_left _ ha

/-- Witness for C2 at a concrete one-document corpus where the document is
hit by both the semantic and the BM25 channel. -/
theorem C2_witness :
    ∃ r ∈ combineDict (hybridDict
        (some (fun _ _ => some [⟨"doc1", some "src", none, some "bk"⟩]))
        (fun _ => 1) (BM25.fit (BM25.init (3/2) (3/4)) ["doc1"])
        ["doc1"] [⟨"doc1", none, none, none⟩] "doc1" 1 (7/10) (3/10)),
      r.content = "doc1" ∧
      r.relevance_score =
        (1 - ((0 : ℕ) : ℚ) / (([⟨"doc1", some "src", none, some "bk"⟩] :
            List SemDoc).length : ℚ)) * (7/10) +
          (if bmMaxScore [(0, 1)] = 0 then 0 else 1 / bmMaxScore [(0, 1)]) * (3/10) ∧
      max ((1 - ((0 : ℕ) : ℚ) / (([⟨"doc1", some "src", none, some "bk"⟩] :
            List SemDoc).length : ℚ)) * (7/10))
          ((if bmMaxScore [(0, 1)] = 0 then 0 else 1 / bmMaxScore [(0, 1)]) * (3/10)) ≤
        r.relevance_score ∧
      (0 < (1 - ((0 : ℕ) : ℚ) / (([⟨"doc1", some "src", none, some "bk"⟩] :
            List SemDoc).length : ℚ)) * (7/10) →
        0 < (if bmMaxScore [(0, 1)] = 0 then 0 else 1 / bmMaxScore [(0, 1)]) * (3/10) →
        (1 - ((0 : ℕ) : ℚ) / (([⟨"doc1", some "src", none, some "bk"⟩] :
            List SemDoc).length : ℚ)) * (7/10) < r.relevance_score ∧
          (if bmMaxScore [(0, 1)] = 0 then 0 else 1 / bmMaxScore [(0, 1)]) * (3/10) <
            r.relevance_score) :=
  C2_hybrid_merge_boost
    (fun _ _ => some [⟨"doc1", some "src", none, some "bk"⟩])
    (fun _ => 1) (BM25.fit (BM25.init (3/2) (3/4)) ["doc1"])
    ["doc1"] [⟨"doc1", none, none, none⟩] "doc1" 1 (7/10) (3/10)
    [⟨"doc1", some "src", none, some "bk"⟩] [(0, 1)] "doc1" 0
    ⟨"doc1", some "src", none, some "bk"⟩ 0 1
    rfl rfl (by with_unfolding_all decide) (by with_unfolding_all decide) rfl rfl
    (by with_unfolding_all decide) (by with_unfolding_all decide)
    (by with_unfolding_all decide) (by with_unfolding_all decide)

/-! ## Reranker (RAGPrecisionBoost.rerank_results) -/

/-- One candidate pass of the rerank loop.  `judge` abstracts the
LLM-as-judge call (prompt on the first 500 characters, JSON parse,
`data.get("relevance_score", 0.5)`): `some ns` is a successfully parsed
score, `none` a raised/unparseable call, after which the source appends the
original result unchanged. -/
def judgeStep (judge : RetrievalResult → Option ℚ) (r : RetrievalResult) :
    RetrievalResult :=
  match judge r with
  | some ns => { r with relevance_score := (r.relevance_score + ns) / 2 }
  | none => r

/-- Model of `RAGPrecisionBoost.rerank_results`.  `model`: the judge collaborator,
`none` when `self.model` is absent. -/
def rerank_results (model : Option (RetrievalResult → Option ℚ))
    (results : List RetrievalResult) (top_k : ℕ) : List RetrievalResult :=
  match model with
  | none => results.take top_k
  | some judge =>
    if results = [] then results.take top_k
    else (sortDesc (fun r => r.relevance_score) (results.map (judgeStep judge))).take top_k

theorem judgeStep_content (judge : RetrievalResult → Option ℚ) (r : RetrievalResult) :
    (judgeStep judge r).content = r.content := by
  unfold judgeStep
  cases judge r <;> rfl

/-- C3: rerank always returns exactly min(top_k, len(results)) items — also
when every judge call fails —, every returned item's content comes from the
input list, and when every per-candidate judge call fails each returned
candidate is an input candidate carried over completely unchanged (prior
relevance_score and retrieval_method included). -/
theorem C3_rerank_non_reduction (model : Option (RetrievalResult → Option ℚ))
    (results : List RetrievalResult) (top_k : ℕ) :
    (rerank_results model results top_k).length = min top_k results.length ∧
    (∀ r ∈ rerank_results model results top_k,
      r.content ∈ results.map RetrievalResult.content) ∧
    (∀ judge, model = some judge → (∀ x ∈ results, judge x = none) →
      ∀ r ∈ rerank_results model results top_k, r ∈ results) := by
  refine ⟨?_, ?_, ?_⟩
  · unfold rerank_results
    cases model with
    | none => exact List.length_take _ _
    | some judge =>
      dsimp only
      by_cases h : results = []
      · rw [if_pos h, List.length_take]
      · rw [if_neg h, List.length_take, length_sortDesc, List.length_map]
  · intro r hr
    unfold rerank_results at hr
    cases model with
    | none =>
      exact List.mem_map_of_mem _ (List.mem_of_mem_take hr)
    | some judge =>
      dsimp only at hr
      by_cases h : results = []
      · rw [if_pos h] at hr
        exact List.mem_map_of_mem _ (List.mem_of_mem_take hr)
      · rw [if_neg h] at hr
        have hr' := (mem_sortDesc _ _ r).mp (List.mem_of_mem_take hr)
        obtain ⟨x, hx, hxr⟩ := List.mem_map.mp hr'
        rw [← hxr, judgeStep_content]
        exact List.mem_map_of_mem _ hx
  · intro judge hm hfail r hr
    subst hm
    unfold rerank_results at hr
    dsimp only at hr
    by_cases h : results = []
    · rw [if_pos h] at hr
      exact List.mem_of_mem_take hr
    · rw [if_neg h] at hr
      have hmapid : results.map (judgeStep judge) = results := by
        have hid : ∀ x ∈ results, judgeStep judge x = x := by
          intro x hx
          unfold judgeStep
          rw [hfail x hx]
        rw [List.map_congr_left hid]
        exact List.map_id _
      rw [hmapid] at hr
      exact (mem_sortDesc _ _ r).mp (List.mem_of_mem_take hr)

/-- Witness for C3: two candidates, an always-failing judge, top_k = 1. -/
theorem C3_witness :
    (rerank_results (some (fun _ => none))
        [⟨"a", "s", none, "b", 1, "hybrid"⟩, ⟨"c", "s", none, "b", 2, "hybrid"⟩]
        1).length =
      min 1 ([⟨"a", "s", none, "b", 1, "hybrid"⟩,
        ⟨"c", "s", none, "b", 2, "hybrid"⟩] : List RetrievalResult).length ∧
    (∀ r ∈ rerank_results (some (fun _ => none))
        [⟨"a", "s", none, "b", 1, "hybrid"⟩, ⟨"c", "s", none, "b", 2, "hybrid"⟩] 1,
      r ∈ ([⟨"a", "s", none, "b", 1, "hybrid"⟩,
        ⟨"c", "s", none, "b", 2, "hybrid"⟩] : List RetrievalResult)) :=
  ⟨(C3_rerank_non_reduction (some (fun _ => none))
      [⟨"a", "s", none, "b", 1, "hybrid"⟩, ⟨"c", "s", none, "b", 2, "hybrid"⟩] 1).1,
    (C3_rerank_non_reduction (some (fun _ => none))
      [⟨"a", "s", none, "b", 1, "hybrid"⟩, ⟨"c", "s", none, "b", 2, "hybrid"⟩] 1).2.2
      (fun _ => none) rfl (fun _ _ => rfl)⟩

/-! ## Multi-query generation (RAGPrecisionBoost.generate_multi_queries) -/

/-- The static synonym table of `_simple_query_expansion`, in source order. -/
def synonym_map : List (String × List String) :=
  [("lo âu", ["anxiety", "lo lắng", "bất an", "hoang mang"]),
   ("stress", ["căng thẳng", "áp lực", "mệt mỏi"]),
   ("buồn", ["sad", "depression", "trầm cảm", "đau khổ"]),
   ("tức giận", ["angry", "bực bội", "khó chịu"]),
   ("sợ", ["fear", "lo sợ", "hoảng sợ"]),
   ("ngủ", ["sleep", "mất ngủ", "insomnia"]),
   ("CBT", ["liệu pháp nhận thức hành vi", "cognitive behavioral therapy"]),
   ("mindfulness", ["chánh niệm", "thiền", "meditation"])]

/-- Python `term in query_lower` (substring containment). -/
def strContains (s sub : String) : Bool :=
  (s.splitOn sub).length ≥ 2

/-- Model of `RAGPrecisionBoost._simple_query_expansion`: for each matching term of
the synonym table, substitute the first two synonyms; cap at 3. -/
def simple_query_expansion (query : String) : List String :=
  let query_lower := lowerStr query
  (synonym_map.foldl
    (fun acc p =>
      if strContains query_lower p.1 then
        acc ++ (p.2.take 2).map (fun syn => query_lower.replace p.1 syn)
      else acc)
    []).take 3

/-- Model of `RAGPrecisionBoost.generate_multi_queries`.  The LLM collaborator is
`model : Option (String → Option (List String))`: `none` when `self.model`
is absent; the inner `none` is a raised call or unparseable JSON, which the
source catches by extending with the static expansion (and capping at 6
instead of the no-model cap of 5). -/
def generate_multi_queries (model : Option (String → Option (List String)))
    (original_query : String) : List String :=
  let queries := [original_query]
  match model with
  | none => (queries ++ simple_query_expansion original_query).take 5
  | some gen =>
    match gen original_query with
    | some additional_queries => (queries ++ additional_queries).take 6
    | none => (queries ++ simple_query_expansion original_query).take 6

/-- C4: for every collaborator state and query, generate_multi_queries is
total (each branch of the embedding is a value, never an exception) and
returns a non-empty list whose first element is the original query and
whose length never exceeds 6. -/
theorem C4_multi_query_shape (model : Option (String → Option (List String)))
    (q : String) :
    0 < (generate_multi_queries model q).length ∧
    (generate_multi_queries model q).head? = some q ∧
    (generate_multi_queries model q).length ≤ 6 := by
  have htake : ∀ (n : ℕ) (l : List String), 0 < n →
      (((q :: l).take n).head? = some q ∧ 0 < ((q :: l).take n).length) := by
    intro n l hn
    match n, hn with
    | n + 1, _ => exact ⟨rfl, Nat.succ_pos _⟩
  unfold generate_multi_queries
  cases model with
  | none =>
    dsimp only
    refine ⟨(htake 5 _ (by norm_num)).2, (htake 5 _ (by norm_num)).1, ?_⟩
    calc (((q :: simple_query_expansion q).take 5)).length ≤ 5 :=
          List.length_take_le _ _
      _ ≤ 6 := by norm_num
  | some gen =>
    dsimp only
    cases gen q with
    | some additional =>
      exact ⟨(htake 6 _ (by norm_num)).2, (htake 6 _ (by norm_num)).1,
        List.length_take_le _ _⟩
    | none =>
      exact ⟨(htake 6 _ (by norm_num)).2, (htake 6 _ (by norm_num)).1,
        List.length_take_le _ _⟩

/-! ## Retrieval orchestrator (RAGPrecisionBoost.retrieve_with_precision) -/

/-- The semantic-only fallback of the orchestrator (`use_hybrid=False` with a
rag_system): each raw result becomes a RetrievalResult with fixed prior 0.5
and method "semantic". -/
def semanticOnly (raw : List SemDoc) : List RetrievalResult :=
  raw.map (fun r =>
    ⟨r.content, r.source_file.getD "unknown", r.page, r.book_title.getD "Unknown",
      1/2, "semantic"⟩)

/-- One merge step of the orchestrator: a first retrieval of a content is
stored as-is; a repeat retrieval adds half of its relevance to the stored
result's score. -/
def mergeStep (d : List (String × RetrievalResult)) (r : RetrievalResult) :
    List (String × RetrievalResult) :=
  match dGet r.content d with
  | none => dSet r.content r d
  | some prev =>
    dSet r.content
      { prev with relevance_score := prev.relevance_score + r.relevance_score * (1/2) } d

/-- The `all_results` dict of the orchestrator after merging every per-query
result list in order. -/
def mergeAll (resultLists : List (List RetrievalResult)) :
    List (String × RetrievalResult) :=
  resultLists.foldl (fun d results => results.foldl mergeStep d) []

/-- Step 1 of the orchestrator: the expanded query set. -/
def retrieve_queries (llm : Option (String → Option (List String)))
    (query : String) (use_multi_query : Bool) : List String :=
  if use_multi_query then generate_multi_queries llm query else [query]

/-- Step 2 of the orchestrator, for one expanded query: hybrid search with
`k*2`, or, when hybrid is disabled, the *unguarded* semantic-only call
(whose exception propagates, hence the bare `Option.map`), or no results
when no rag_system is configured. -/
def perQuerySearch (ragSys : Option (String → ℕ → Option (List SemDoc)))
    (L : ℚ → ℚ) (bm : BM25State) (cache : List String) (metas : List SemDoc)
    (k : ℕ) (use_hybrid : Bool) (q : String) : Option (List RetrievalResult) :=
  if use_hybrid then
    some (hybrid_search ragSys L bm cache metas q (k * 2) (7/10) (3/10))
  else
    match ragSys with
    | some f => (f q (k * 2)).map semanticOnly
    | none => some []

/-- Model of `RAGPrecisionBoost.retrieve_with_precision`.  `llm` and `judge` are the
two uses of `self.model` (multi-query generation and reranking), `ragSys`
the rag_system collaborator; the result is `none` exactly when the
unguarded semantic-only call of `retrieve_relevant_context` raises (the
only uncaught exception path of the source). -/
def retrieve_with_precision (llm : Option (String → Option (List String)))
    (judge : Option (RetrievalResult → Option ℚ))
    (ragSys : Option (String → ℕ → Option (List SemDoc)))
    (L : ℚ → ℚ) (bm : BM25State) (cache : List String) (metas : List SemDoc)
    (query : String) (k : ℕ)
    (use_multi_query use_hybrid use_rerank : Bool) :
    Option (List RetrievalResult) :=
  match (retrieve_queries llm query use_multi_query).mapM
      (perQuerySearch ragSys L bm cache metas k use_hybrid) with
  | none => none
  | some resultLists =>
    some (if use_rerank then
        rerank_results judge
          ((sortDesc (fun r => r.relevance_score)
            ((mergeAll resultLists).map Prod.snd)).take (k * 2)) k
      else
        (sortDesc (fun r => r.relevance_score)
          ((mergeAll resultLists).map Prod.snd)).take k)

/-! ### C5: the cross-query merge -/

theorem mergeStep_dGet_other {c : String} (d : List (String × RetrievalResult))
    (r : RetrievalResult) (h : r.content ≠ c) :
    dGet c (mergeStep d r) = dGet c d := by
  unfold mergeStep
  cases dGet r.content d with
  | none => exact dGet_dSet_other (Ne.symm h) _ d
  | some prev => exact dGet_dSet_other (Ne.symm h) _ d

/-- Merging a list into an accumulator that already holds `v` at `c` only
adds half of each further occurrence's score to `v`. -/
theorem mergeFold_some {c : String} :
    ∀ (l : List RetrievalResult) (d : List (String × RetrievalResult))
      (v : RetrievalResult), dGet c d = some v →
      dGet c (l.foldl mergeStep d) =
        some { v with relevance_score := v.relevance_score +
          ((l.filter (fun x => x.content == c)).map RetrievalResult.relevance_score).sum
            * (1/2) } := by
  intro l
  induction l with
  | nil =>
    intro d v hd
    rw [show ([] : List RetrievalResult).foldl mergeStep d = d from rfl, hd]
    rw [show (([] : List RetrievalResult).filter (fun x => x.content == c)) = []
      from rfl]
    norm_num
  | cons x t ih =>
    intro d v hd
    rw [List.foldl_cons, List.filter_cons]
    by_cases hx : x.content = c
    · have hstep : dGet c (mergeStep d x) =
          some { v with relevance_score := v.relevance_score +
            x.relevance_score * (1/2) } := by
        unfold mergeStep
        rw [hx, hd]
        exact dGet_dSet_self _ _ _
      rw [ih _ _ hstep]
      rw [if_pos (beq_iff_eq.mpr hx)]
      simp only [List.map_cons, List.sum_cons]
      congr 1
      ring_nf
    · have hstep : dGet c (mergeStep d x) = some v := by
        rw [mergeStep_dGet_other d x hx]
        exact hd
      rw [ih _ _ hstep]
      rw [if_neg (fun hb => hx (eq_of_beq hb))]

/-- Merging a list into an accumulator with no entry at `c` stores the first
occurrence and adds half of each later occurrence's score. -/
theorem mergeFold_none {c : String} :
    ∀ (l : List RetrievalResult) (d : List (String × RetrievalResult)),
      dGet c d = none →
      dGet c (l.foldl mergeStep d) =
        match l.filter (fun x => x.content == c) with
        | [] => none
        | r :: rest =>
          some { r with relevance_score := r.relevance_score +
            (rest.map RetrievalResult.relevance_score).sum * (1/2) } := by
  intro l
  induction l with
  | nil =>
    intro d hd
    rw [show ([] : List RetrievalResult).foldl mergeStep d = d from rfl, hd]
    rfl
  | cons x t ih =>
    intro d hd
    rw [List.foldl_cons, List.filter_cons]
    by_cases hx : x.content = c
    · have hstep : dGet c (mergeStep d x) = some x := by
        unfold mergeStep
        rw [hx, hd]
        exact dGet_dSet_self _ _ _
      rw [mergeFold_some t _ x hstep, if_pos (beq_iff_eq.mpr hx)]
    · have hstep : dGet c (mergeStep d x) = none := by
        rw [mergeStep_dGet_other d x hx]
        exact hd
      rw [ih _ hstep, if_neg (fun hb => hx (eq_of_beq hb))]

theorem dSet_keys_of_mem (c : String) (v : β) :
    ∀ (d : List (String × β)), c ∈ d.map Prod.fst →
      (dSet c v d).map Prod.fst = d.map Prod.fst := by
  intro d
  induction d with
  | nil => simp
  | cons p rest ih =>
    intro hmem
    by_cases h : p.1 = c
    · rw [show dSet c v (p :: rest) = (c, v) :: rest by simp [dSet, h]]
      simp [h]
    · rw [show dSet c v (p :: rest) = p :: dSet c v rest by simp [dSet, h]]
      have : c ∈ rest.map Prod.fst := by
        rcases List.mem_cons.mp hmem with hc | hc
        · exact absurd hc.symm h
        · exact hc
      simp [ih this]

theorem dSet_of_notMem (c : String) (v : β) :
    ∀ (d : List (String × β)), c ∉ d.map Prod.fst →
      dSet c v d = d ++ [(c, v)] := by
  intro d
  induction d with
  | nil => intro _; rfl
  | cons p rest ih =>
    intro hmem
    have h : p.1 ≠ c := fun he => hmem (by simp [he])
    rw [show dSet c v (p :: rest) = p :: dSet c v rest by simp [dSet, h]]
    rw [ih (fun hc => hmem (List.mem_cons_of_mem _ hc))]
    rfl

theorem mem_dSet (c : String) (v : β) :
    ∀ (d : List (String × β)) (q : String × β),
      q ∈ dSet c v d → q = (c, v) ∨ q ∈ d := by
  intro d
  induction d with
  | nil =>
    intro q hq
    simp [dSet] at hq
    exact Or.inl hq
  | cons p rest ih =>
    intro q hq
    by_cases h : p.1 = c
    · rw [show dSet c v (p :: rest) = (c, v) :: rest by simp [dSet, h]] at hq
      rcases List.mem_cons.mp hq with hc | hc
      · exact Or.inl hc
      · exact Or.inr (List.mem_cons_of_mem _ hc)
    · rw [show dSet c v (p :: rest) = p :: dSet c v rest by simp [dSet, h]] at hq
      rcases List.mem_cons.mp hq with hc | hc
      · exact Or.inr (hc ▸ List.mem_cons_self _ _)
      · rcases ih q hc with hc' | hc'
        · exact Or.inl hc'
        · exact Or.inr (List.mem_cons_of_mem _ hc')

theorem mergeStep_keys_nodup (d : List (String × RetrievalResult))
    (r : RetrievalResult) (h : (d.map Prod.fst).Nodup) :
    ((mergeStep d r).map Prod.fst).Nodup := by
  unfold mergeStep
  cases hd : dGet r.content d with
  | none =>
    have hnot : r.content ∉ d.map Prod.fst := (dGet_eq_none_iff _ _).mp hd
    rw [dSet_of_notMem _ _ _ hnot]
    simp only [List.map_append, List.map_cons, List.map_nil]
    exact List.nodup_append_comm.mp (by simpa using List.nodup_cons.mpr ⟨hnot, h⟩)
  | some prev =>
    have hmem : r.content ∈ d.map Prod.fst :=
      List.mem_map_of_mem Prod.fst (mem_of_dGet_eq_some hd)
    rw [dSet_keys_of_mem _ _ _ hmem]
    exact h

theorem mergeStep_content_inv (d : List (String × RetrievalResult))
    (r : RetrievalResult) (h : ∀ p ∈ d, (p.2 : RetrievalResult).content = p.1) :
    ∀ p ∈ mergeStep d r, (p.2 : RetrievalResult).content = p.1 := by
  unfold mergeStep
  cases hd : dGet r.content d with
  | none =>
    intro p hp
    rcases mem_dSet _ _ _ _ hp with hc | hc
    · rw [hc]
    · exact h p hc
  | some prev =>
    intro p hp
    rcases mem_dSet _ _ _ _ hp with hc | hc
    · rw [hc]
      exact h (r.content, prev) (mem_of_dGet_eq_some hd)
    · exact h p hc

theorem mergeFold_preserves (l : List RetrievalResult) :
    ∀ (d : List (String × RetrievalResult)),
      (d.map Prod.fst).Nodup → (∀ p ∈ d, (p.2 : RetrievalResult).content = p.1) →
      ((l.foldl mergeStep d).map Prod.fst).Nodup ∧
        (∀ p ∈ l.foldl mergeStep d, (p.2 : RetrievalResult).content = p.1) := by
  induction l with
  | nil => intro d h1 h2; exact ⟨h1, h2⟩
  | cons x t ih =>
    intro d h1 h2
    rw [List.foldl_cons]
    exact ih _ (mergeStep_keys_nodup d x h1) (mergeStep_content_inv d x h2)

/-- C5: the orchestrator merge keeps each distinct content at most once, and
the merged relevance of a content equals the score of the first retrieval
plus half the score of every further retrieval of the same content across
the (per-query) result lists, all other fields coming from that first
retrieval. -/
theorem C5_merge_dedup_and_boost (resultLists : List (List RetrievalResult)) :
    ((mergeAll resultLists).map (fun p => (p.2 : RetrievalResult).content)).Nodup ∧
    (∀ (c : String) (r : RetrievalResult) (rest : List RetrievalResult),
      (resultLists.flatten).filter (fun x => x.content == c) = r :: rest →
      dGet c (mergeAll resultLists) =
        some { r with relevance_score := r.relevance_score +
          (rest.map RetrievalResult.relevance_score).sum * (1/2) }) := by
  have hfold : mergeAll resultLists = (resultLists.flatten).foldl mergeStep [] := by
    unfold mergeAll
    rw [List.foldl_flatten]
  constructor
  · have hp := mergeFold_preserves resultLists.flatten [] (by simp) (by simp)
    rw [hfold]
    have hmapeq : ((resultLists.flatten).foldl mergeStep []).map
        (fun p => (p.2 : RetrievalResult).content) =
        ((resultLists.flatten).foldl mergeStep []).map Prod.fst :=
      List.map_congr_left (fun p hp' => hp.2 p hp')
    rw [hmapeq]
    exact hp.1
  · intro c r rest hfilter
    rw [hfold, mergeFold_none (resultLists.flatten) [] rfl, hfilter]

/-- Witness for C5: the same content "a" retrieved by two expanded queries
with scores 1 and 2 merges to 1 + 2·0.5 = 2, and the merged list has
pairwise distinct contents. -/
theorem C5_witness :
    (((mergeAll [[⟨"a", "s", none, "b", 1, "hybrid"⟩],
        [⟨"a", "s", none, "b", 2, "hybrid"⟩]]).map
          (fun p => (p.2 : RetrievalResult).content)).Nodup) ∧
    dGet "a" (mergeAll [[⟨"a", "s", none, "b", 1, "hybrid"⟩],
        [⟨"a", "s", none, "b", 2, "hybrid"⟩]]) =
      some { (⟨"a", "s", none, "b", 1, "hybrid"⟩ : RetrievalResult) with
        relevance_score := 1 + ((([⟨"a", "s", none, "b", 2, "hybrid"⟩] :
          List RetrievalResult).map RetrievalResult.relevance_score).sum) * (1/2) } :=
  ⟨(C5_merge_dedup_and_boost _).1,
    (C5_merge_dedup_and_boost
        [[⟨"a", "s", none, "b", 1, "hybrid"⟩], [⟨"a", "s", none, "b", 2, "hybrid"⟩]]).2
      "a" ⟨"a", "s", none, "b", 1, "hybrid"⟩ [⟨"a", "s", none, "b", 2, "hybrid"⟩]
      (by with_unfolding_all decide)⟩

/-! ### C10: no input validation for k = 0 -/

theorem rerank_results_nil (judge : Option (RetrievalResult → Option ℚ)) :
    rerank_results judge [] 0 = [] := by
  cases judge <;> rfl

/-- C10 (amended): the orchestrator performs no validation of `k`.  A call
with `k = 0` either propagates an exception of the unguarded semantic-only
backend call (`none` — possible for any `k`, not a validation error) or
returns the empty list as an ordinary result; no input-validation error
exists in the code. -/
theorem C10_k_zero_returns_normally
    (llm : Option (String → Option (List String)))
    (judge : Option (RetrievalResult → Option ℚ))
    (ragSys : Option (String → ℕ → Option (List SemDoc)))
    (L : ℚ → ℚ) (bm : BM25State) (cache : List String) (metas : List SemDoc)
    (query : String) (use_multi_query use_hybrid use_rerank : Bool) :
    retrieve_with_precision llm judge ragSys L bm cache metas query 0
        use_multi_query use_hybrid use_rerank = none ∨
    retrieve_with_precision llm judge ragSys L bm cache metas query 0
        use_multi_query use_hybrid use_rerank = some [] := by
  unfold retrieve_with_precision
  cases hE : (retrieve_queries llm query use_multi_query).mapM
      (perQuerySearch ragSys L bm cache metas 0 use_hybrid) with
  | none => exact Or.inl rfl
  | some resultLists =>
    right
    dsimp only
    simp only [show (0 : ℕ) * 2 = 0 from rfl, List.take_zero]
    cases use_rerank with
    | false => rfl
    | true => rw [if_pos rfl, rerank_results_nil]

/-- C10 counterexample: the claim says every `k ≤ 0` is rejected with a
validation error; in fact at `k = 0` (with no collaborators and an unfitted
index) the orchestrator simply returns the empty result list. -/
theorem C10_counterexample_no_validation :
    retrieve_with_precision none none none (fun _ => 0)
      (BM25.init (3/2) (3/4)) [] [] "hello" 0 true true true = some [] := by
  with_unfolding_all decide

/-! ## Semantic chunker of rag_precision.py (class SemanticChunker) -/

/-- Model of `_estimate_tokens`: `len(text) // 4`. -/
def estimate_tokens (l : List Char) : ℕ :=
  l.length / 4

/-- Python `str.strip()` (ASCII whitespace fragment). -/
def strip (l : List Char) : List Char :=
  ((l.dropWhile isSpaceChar).reverse.dropWhile isSpaceChar).reverse

/-- Generic model of `re.finditer` for the boundary patterns: `m s` returns
`some (r, a)` when the pattern matches at the head of the suffix `s`, where
`r` is the offset of `match.end()` from the suffix start and `a ≥ 1` the
number of characters after which scanning resumes (the match end, since
none of the four patterns has a zero-width total match).  The scan records
`p + r` for each non-overlapping leftmost match and otherwise advances one
character. -/
def scan (m : List Char → Option (ℕ × ℕ)) : ℕ → List Char → List ℕ
  | _, [] => []
  | p, c :: rest =>
    match m (c :: rest) with
    | some ra => (p + ra.1) :: scan m (p + max 1 ra.2) (rest.drop (ra.2 - 1))
    | none => scan m (p + 1) rest
termination_by _ l => l.length
decreasing_by
  · simp only [List.length_drop, List.length_cons]
    omega
  · simp only [List.length_cons]
    omega

/-- Pattern 1, `\n\n+`: a run of at least two newlines, matched greedily. -/
def mPara : List Char → Option (ℕ × ℕ)
  | c :: rest =>
    if c = '\n' ∧ 1 ≤ countWhile (fun x => x = '\n') rest then
      some (1 + countWhile (fun x => x = '\n') rest, 1 + countWhile (fun x => x = '\n') rest)
    else none
  | [] => none

/-- Pattern 2, `\n(?=[A-Z0-9])`: a newline followed (lookahead) by a capital
letter or digit; only the newline is consumed. -/
def mNewlineCap : List Char → Option (ℕ × ℕ)
  | c1 :: c2 :: _ =>
    if c1 = '\n' ∧ (isUpperChar c2 || isDigitChar c2) then some (1, 1) else none
  | _ => none

/-- Pattern 3, `\. (?=[A-Z])`: period + space followed (lookahead) by a
capital letter. -/
def mPeriodCap : List Char → Option (ℕ × ℕ)
  | c1 :: c2 :: c3 :: _ =>
    if c1 = '.' ∧ c2 = ' ' ∧ isUpperChar c3 then some (2, 2) else none
  | _ => none

/-- Pattern 4, `[.!?]\s+`: sentence-ending punctuation followed by a greedy
whitespace run. -/
def mSentWs : List Char → Option (ℕ × ℕ)
  | c :: rest =>
    if isSentEnd c ∧ 1 ≤ countWhile isSpaceChar rest then
      some (1 + countWhile isSpaceChar rest, 1 + countWhile isSpaceChar rest)
    else none
  | [] => none

/-- Model of `SemanticChunker._find_semantic_boundaries`: 0, every match end of each
of the four patterns, and the text length, as `sorted(set(...))`. -/
def find_semantic_boundaries (text : List Char) : List ℕ :=
  List.insertionSort (· ≤ ·)
    (((0 :: scan mPara 0 text) ++ scan mNewlineCap 0 text ++ scan mPeriodCap 0 text
      ++ scan mSentWs 0 text ++ [text.length]).dedup)

/-- The per-iteration data of the chunking loop: each boundary interval's
start offset paired with the text segment `text[boundaries[i-1]:boundaries[i]]`. -/
def segmentsB (text : List Char) : List ℕ → List (ℕ × List Char)
  | b1 :: b2 :: rest => (b1, (text.drop b1).take (b2 - b1)) :: segmentsB text (b2 :: rest)
  | _ => []

/-- A chunk dict of `SemanticChunker.chunk` (the Python key `end` is named
`stop` here). -/
structure Chunk where
  content : List Char
  start : ℕ
  stop : ℕ
  tokens : ℕ
deriving DecidableEq

/-- Loop state of `SemanticChunker.chunk`: emitted chunks, the start offset
of the running chunk, and the running chunk text. -/
structure CState where
  chunks : List Chunk
  curStart : ℕ
  cur : List Char
deriving DecidableEq

/-- The overlap text seeding the next chunk: the trailing
`int(len(current) * overlap_percentage)` characters of the closed chunk,
empty when that size is 0 (`Int.floor` matches Python `int()` for the
nonnegative products arising from the 0.15 default). -/
def chunkOverlap (pct : ℚ) (cur : List Char) : List Char :=
  if 0 < (Int.floor ((cur.length : ℚ) * pct)).toNat then
    cur.drop (cur.length - (Int.floor ((cur.length : ℚ) * pct)).toNat)
  else []

/-- One iteration of the chunking loop.  On overflow the non-blank running
chunk is emitted (the source never consults `min_chunk_size`) and the next
chunk is seeded with the overlap text. -/
def chunkStep (maxS : ℕ) (pct : ℚ) (st : CState) (p : ℕ × List Char) : CState :=
  if maxS < estimate_tokens (st.cur ++ p.2) then
    ⟨(if strip st.cur ≠ [] then
        st.chunks ++ [⟨strip st.cur, st.curStart, p.1, estimate_tokens st.cur⟩]
      else st.chunks),
      p.1 - (chunkOverlap pct st.cur).length,
      chunkOverlap pct st.cur ++ p.2⟩
  else ⟨st.chunks, st.curStart, st.cur ++ p.2⟩

/-- The trailing emission of `SemanticChunker.chunk`: the final partial
chunk, if non-blank. -/
def chunkFinal (text : List Char) (st : CState) : List Chunk :=
  if strip st.cur ≠ [] then
    st.chunks ++ [⟨strip st.cur, st.curStart, text.length, estimate_tokens st.cur⟩]
  else st.chunks

/-- Model of `SemanticChunker.chunk`.  `minS` (`min_chunk_size`) is accepted but —
exactly as in the source — never used by the loop. -/
def chunk (minS maxS : ℕ) (pct : ℚ) (text : List Char) : List Chunk :=
  chunkFinal text ((segmentsB text (find_semantic_boundaries text)).foldl
    (chunkStep maxS pct) ⟨[], 0, []⟩)

/-! ## Semantic chunker of load_kb_enhanced.py (SemanticChunker.semantic_chunk) -/

/-- Model of `re.split` on the sentence-ending pattern: cut at every non-overlapping match,
dropping the matched separator (punctuation and whitespace run). -/
def split_sentences_aux (cur : List Char) : List Char → List (List Char)
  | [] => [cur.reverse]
  | c :: rest =>
    if isSentEnd c ∧ 1 ≤ countWhile isSpaceChar rest then
      cur.reverse :: split_sentences_aux [] (rest.drop (countWhile isSpaceChar rest))
    else split_sentences_aux (c :: cur) rest
termination_by l => l.length
decreasing_by
  · simp only [List.length_drop, List.length_cons]
    omega
  · simp only [List.length_cons]
    omega

/-- Model of `SemanticChunker.split_into_sentences`: split, strip, drop blanks. -/
def split_into_sentences (text : List Char) : List (List Char) :=
  ((split_sentences_aux [] text).map strip).filter (fun s => s ≠ [])

/-- Model of the space-join of the sentence list. -/
def joinSp : List (List Char) → List Char
  | [] => []
  | [s] => s
  | s :: rest => s ++ ' ' :: joinSp rest

/-- The overlap-seeding loop of `semantic_chunk`: walk the sentences of the
closed chunk from the back, keeping whole trailing sentences while the
accumulated size stays within `overlap`; stops at the first sentence that
does not fit.  The argument is the reversed current chunk. -/
def overlapGo (overlap : ℕ) : List (List Char) → ℕ → List (List Char) × ℕ
  | [], size => ([], size)
  | s :: rest, size =>
    if size + s.length ≤ overlap then
      let r := overlapGo overlap rest (size + s.length)
      (r.1 ++ [s], r.2)
    else ([], size)

/-- Loop state of `semantic_chunk`: emitted chunk texts (only `content`
matters for the properties at hand; the constant `type` field and the
`heading` association are orthogonal metadata that never influence which
chunks are produced and are omitted), current sentences and running size. -/
structure LState where
  chunks : List (List Char)
  cur : List (List Char)
  curSize : ℕ
deriving DecidableEq

/-- One sentence of the `semantic_chunk` loop: close the chunk when adding
the sentence would exceed `target` and the accumulated size already meets
`minS`; then append the sentence. -/
def lkStep (target minS overlap : ℕ) (st : LState) (sentence : List Char) : LState :=
  let st1 :=
    if target < st.curSize + sentence.length ∧ minS ≤ st.curSize then
      let chunk_text := joinSp st.cur
      let chunks' := if strip chunk_text ≠ [] then st.chunks ++ [chunk_text] else st.chunks
      let r := overlapGo overlap st.cur.reverse 0
      (⟨chunks', r.1, r.2⟩ : LState)
    else st
  ⟨st1.chunks, st1.cur ++ [sentence], st1.curSize + sentence.length⟩

/-- The trailing emission of `semantic_chunk`: the last chunk is kept only
if non-blank and at least `minS` characters long. -/
def lkFinal (minS : ℕ) (st : LState) : List (List Char) :=
  if st.cur ≠ [] then
    if strip (joinSp st.cur) ≠ [] ∧ minS ≤ (joinSp st.cur).length then
      st.chunks ++ [joinSp st.cur]
    else st.chunks
  else st.chunks

/-- Model of `SemanticChunker.semantic_chunk` (chunk texts only). -/
def semantic_chunk (text : List Char) (target minS overlap : ℕ) : List (List Char) :=
  lkFinal minS ((split_into_sentences text).foldl (lkStep target minS overlap) ⟨[], [], 0⟩)

/-! ### C6: chunk size bounds -/

theorem sum_length_le_joinSp :
    ∀ (l : List (List Char)), ((l.map List.length).sum) ≤ (joinSp l).length := by
  intro l
  match l with
  | [] => simp [joinSp]
  | [s] => simp [joinSp]
  | s :: r :: t =>
    have ih := sum_length_le_joinSp (r :: t)
    rw [show joinSp (s :: r :: t) = s ++ ' ' :: joinSp (r :: t) from rfl]
    simp only [List.map_cons, List.sum_cons, List.length_append, List.length_cons]
    simp only [List.map_cons, List.sum_cons] at ih
    omega

theorem overlapGo_size (overlap : ℕ) :
    ∀ (l : List (List Char)) (size : ℕ),
      (overlapGo overlap l size).2 =
        size + (((overlapGo overlap l size).1).map List.length).sum := by
  intro l
  induction l with
  | nil => intro size; simp [overlapGo]
  | cons s rest ih =>
    intro size
    by_cases h : size + s.length ≤ overlap
    · rw [show overlapGo overlap (s :: rest) size =
          ((overlapGo overlap rest (size + s.length)).1 ++ [s],
            (overlapGo overlap rest (size + s.length)).2) by simp [overlapGo, h]]
      simp only [List.map_append, List.sum_append, List.map_cons, List.sum_cons,
        List.map_nil, List.sum_nil]
      rw [ih (size + s.length)]
      omega
    · rw [show overlapGo overlap (s :: rest) size = ([], size) by simp [overlapGo, h]]
      simp

theorem lkStep_inv (target minS overlap : ℕ) (st : LState) (sentence : List Char)
    (h1 : ∀ c ∈ st.chunks, minS ≤ c.length)
    (h2 : st.curSize = (st.cur.map List.length).sum) :
    (∀ c ∈ (lkStep target minS overlap st sentence).chunks, minS ≤ c.length) ∧
    (lkStep target minS overlap st sentence).curSize =
      (((lkStep target minS overlap st sentence).cur).map List.length).sum := by
  unfold lkStep
  by_cases hcond : target < st.curSize + sentence.length ∧ minS ≤ st.curSize
  · rw [if_pos hcond]
    dsimp only
    constructor
    · intro c hc
      by_cases hb : strip (joinSp st.cur) ≠ []
      · rw [if_pos hb] at hc
        rcases List.mem_append.mp hc with hcc | hcc
        · exact h1 c hcc
        · have hcj : c = joinSp st.cur := by simpa using hcc
          rw [hcj]
          calc minS ≤ st.curSize := hcond.2
            _ = (st.cur.map List.length).sum := h2
            _ ≤ (joinSp st.cur).length := sum_length_le_joinSp st.cur
      · rw [if_neg hb] at hc
        exact h1 c hc
    · simp only [List.map_append, List.sum_append, List.map_cons, List.sum_cons,
        List.map_nil, List.sum_nil]
      have := overlapGo_size overlap st.cur.reverse 0
      omega
  · rw [if_neg hcond]
    dsimp only
    refine ⟨h1, ?_⟩
    simp only [List.map_append, List.sum_append, List.map_cons, List.sum_cons,
      List.map_nil, List.sum_nil]
    omega

theorem lkFold_inv (target minS overlap : ℕ) :
    ∀ (sentences : List (List Char)) (st : LState),
      (∀ c ∈ st.chunks, minS ≤ c.length) →
      st.curSize = (st.cur.map List.length).sum →
      (∀ c ∈ (sentences.foldl (lkStep target minS overlap) st).chunks, minS ≤ c.length) ∧
      (sentences.foldl (lkStep target minS overlap) st).curSize =
        (((sentences.foldl (lkStep target minS overlap) st).cur).map List.length).sum := by
  intro sentences
  induction sentences with
  | nil => intro st h1 h2; exact ⟨h1, h2⟩
  | cons s rest ih =>
    intro st h1 h2
    rw [List.foldl_cons]
    have hs := lkStep_inv target minS overlap st s h1 h2
    exact ih _ hs.1 hs.2

/-- C6 (amended, the only bound that holds): every chunk produced by
load_kb_enhanced's `semantic_chunk` — mid chunks by the close condition,
the final chunk by its explicit guard — has at least `minS` characters.
The claimed upper bound and the rag_precision bounds fail (see the
counterexample). -/
theorem C6_load_kb_lower_bound (text : List Char) (target minS overlap : ℕ) :
    ∀ c ∈ semantic_chunk text target minS overlap, minS ≤ c.length := by
  intro c hc
  unfold semantic_chunk at hc
  have hinv := lkFold_inv target minS overlap (split_into_sentences text)
    ⟨[], [], 0⟩ (by simp) (by simp)
  unfold lkFinal at hc
  set st := (split_into_sentences text).foldl (lkStep target minS overlap) ⟨[], [], 0⟩
    with hst
  by_cases hne : st.cur ≠ []
  · rw [if_pos hne] at hc
    by_cases hg : strip (joinSp st.cur) ≠ [] ∧ minS ≤ (joinSp st.cur).length
    · rw [if_pos hg] at hc
      rcases List.mem_append.mp hc with hcc | hcc
      · exact hinv.1 c hcc
      · have hcj : c = joinSp st.cur := by simpa using hcc
        rw [hcj]
        exact hg.2
    · rw [if_neg hg] at hc
      exact hinv.1 c hc
  · rw [if_neg hne] at hc
    exact hinv.1 c hc

/-- Witness for C6 (amended) at a concrete input: the single chunk of
semantic_chunk "Hi. Jo." with min_size 2 has length ≥ 2. -/
theorem C6_witness :
    ("Hi Jo.".data ∈ semantic_chunk "Hi. Jo.".data 10 2 3) ∧
      2 ≤ ("Hi Jo.".data).length :=
  ⟨by with_unfolding_all decide,
    C6_load_kb_lower_bound "Hi. Jo.".data 10 2 3 "Hi Jo.".data
      (by with_unfolding_all decide)⟩

/-- C6 counterexample: the claimed size bounds fail in every other
direction, at concrete inputs and configurations.  (a) the rag_precision
chunker (min 2, max 3 estimated tokens) emits a non-final chunk of
estimated size 0 < min; (b) it also emits a non-final chunk of estimated
size 4 > max; (c) the load_kb_enhanced chunker (target 5, min 1) emits a
non-final chunk of 10 > 5 characters. -/
theorem C6_counterexample_size_bounds :
    ((chunk 2 3 (3/20) "Ab. XXXXXXXXXXXX".data).map
        (fun c => estimate_tokens c.content) = [0, 3]) ∧
    ((chunk 2 3 (3/20) "XXXXXXXXXXXXXXXX. Ab".data).map
        (fun c => estimate_tokens c.content) = [4, 1]) ∧
    ((semantic_chunk "Abcdefghij. Xy. Z.".data 5 1 0).map List.length = [10, 5]) := by
  refine ⟨?_, ?_, ?_⟩ <;> with_unfolding_all decide

/-! ### C9: short inputs and the single-chunk property -/

theorem countWhile_le (p : Char → Bool) (l : List Char) : countWhile p l ≤ l.length := by
  unfold countWhile
  induction l with
  | nil => simp
  | cons c rest ih =>
    by_cases h : p c
    · rw [List.takeWhile_cons, if_pos h]
      simpa using ih
    · rw [List.takeWhile_cons, if_neg h]
      simp

theorem mPara_le (s : List Char) (r a : ℕ) (h : mPara s = some (r, a)) :
    r ≤ s.length ∧ a ≤ s.length := by
  cases s with
  | nil => simp [mPara] at h
  | cons c rest =>
    unfold mPara at h
    dsimp only at h
    split_ifs at h
    simp only [Option.some.injEq, Prod.mk.injEq] at h
    have hcw := countWhile_le (fun x => x = '\n') rest
    constructor
    · rw [← h.1]
      simp only [List.length_cons]
      omega
    · rw [← h.2]
      simp only [List.length_cons]
      omega

theorem mNewlineCap_le (s : List Char) (r a : ℕ) (h : mNewlineCap s = some (r, a)) :
    r ≤ s.length ∧ a ≤ s.length := by
  match s with
  | [] => simp [mNewlineCap] at h
  | [c] => simp [mNewlineCap] at h
  | c1 :: c2 :: rest =>
    unfold mNewlineCap at h
    dsimp only at h
    split_ifs at h
    simp only [Option.some.injEq, Prod.mk.injEq] at h
    constructor
    · rw [← h.1]
      simp only [List.length_cons]
      omega
    · rw [← h.2]
      simp only [List.length_cons]
      omega

theorem mPeriodCap_le (s : List Char) (r a : ℕ) (h : mPeriodCap s = some (r, a)) :
    r ≤ s.length ∧ a ≤ s.length := by
  match s with
  | [] => simp [mPeriodCap] at h
  | [c] => simp [mPeriodCap] at h
  | [c1, c2] => simp [mPeriodCap] at h
  | c1 :: c2 :: c3 :: rest =>
    unfold mPeriodCap at h
    dsimp only at h
    split_ifs at h
    simp only [Option.some.injEq, Prod.mk.injEq] at h
    constructor
    · rw [← h.1]
      simp only [List.length_cons]
      omega
    · rw [← h.2]
      simp only [List.length_cons]
      omega

theorem mSentWs_le (s : List Char) (r a : ℕ) (h : mSentWs s = some (r, a)) :
    r ≤ s.length ∧ a ≤ s.length := by
  cases s with
  | nil => simp [mSentWs] at h
  | cons c rest =>
    unfold mSentWs at h
    dsimp only at h
    split_ifs at h
    simp only [Option.some.injEq, Prod.mk.injEq] at h
    have hcw := countWhile_le isSpaceChar rest
    constructor
    · rw [← h.1]
      simp only [List.length_cons]
      omega
    · rw [← h.2]
      simp only [List.length_cons]
      omega

theorem scan_le (m : List Char → Option (ℕ × ℕ))
    (hm : ∀ s r a, m s = some (r, a) → r ≤ s.length ∧ a ≤ s.length) :
    ∀ (n : ℕ) (l : List Char), l.length ≤ n →
      ∀ (p q : ℕ), q ∈ scan m p l → q ≤ p + l.length := by
  intro n
  induction n with
  | zero =>
    intro l hl p q hq
    rw [List.length_eq_zero.mp (Nat.le_zero.mp hl)] at hq
    simp [scan] at hq
  | succ n ih =>
    intro l hl p q hq
    cases l with
    | nil => simp [scan] at hq
    | cons c rest =>
      rw [scan] at hq
      cases hmc : m (c :: rest) with
      | none =>
        rw [hmc] at hq
        dsimp only at hq
        have := ih rest (by simp at hl; omega) (p + 1) q hq
        simp only [List.length_cons]
        omega
      | some ra =>
        rw [hmc] at hq
        dsimp only at hq
        rcases List.mem_cons.mp hq with rfl | hq'
        · have hb := (hm (c :: rest) ra.1 ra.2 (by rw [hmc])).1
          omega
        · have hlen : (rest.drop (ra.2 - 1)).length ≤ n := by
            simp only [List.length_drop]
            simp only [List.length_cons] at hl
            omega
          have hdl : (rest.drop (ra.2 - 1)).length = rest.length - (ra.2 - 1) :=
            List.length_drop _ _
          have hrec := ih _ hlen (p + max 1 ra.2) q hq'
          have hb2 := (hm (c :: rest) ra.1 ra.2 (by rw [hmc])).2
          simp only [List.length_cons] at hb2
          rcases max_choice 1 ra.2 with hc | hc <;>
            rw [hc] at hrec <;> simp only [List.length_cons] <;> omega

theorem mem_boundaries_iff (text : List Char) (x : ℕ) :
    x ∈ find_semantic_boundaries text ↔
      x ∈ (0 :: scan mPara 0 text) ++ scan mNewlineCap 0 text ++
        scan mPeriodCap 0 text ++ scan mSentWs 0 text ++ [text.length] := by
  unfold find_semantic_boundaries
  rw [(List.perm_insertionSort (· ≤ ·) _).mem_iff, List.mem_dedup]

theorem boundaries_le (text : List Char) :
    ∀ x ∈ find_semantic_boundaries text, x ≤ text.length := by
  intro x hx
  rw [mem_boundaries_iff] at hx
  simp only [List.mem_append, List.mem_cons, List.mem_singleton] at hx
  rcases hx with ((((hx | hx) | hx) | hx) | hx)
  · rcases hx with rfl | hx
    · exact Nat.zero_le _
    · simpa using scan_le mPara mPara_le text.length text (le_refl _) 0 x hx
  · simpa using scan_le mNewlineCap mNewlineCap_le text.length text (le_refl _) 0 x hx
  · simpa using scan_le mPeriodCap mPeriodCap_le text.length text (le_refl _) 0 x hx
  · simpa using scan_le mSentWs mSentWs_le text.length text (le_refl _) 0 x hx
  · rcases hx with hx | hx
    · rw [hx]
    · simp at hx

theorem zero_mem_boundaries (text : List Char) : 0 ∈ find_semantic_boundaries text := by
  rw [mem_boundaries_iff]
  simp

theorem len_mem_boundaries (text : List Char) :
    text.length ∈ find_semantic_boundaries text := by
  rw [mem_boundaries_iff]
  simp

theorem boundaries_sorted (text : List Char) :
    List.Sorted (· ≤ ·) (find_semantic_boundaries text) :=
  List.sorted_insertionSort (· ≤ ·) _

theorem sorted_head_zero {l : List ℕ} (hs : List.Sorted (· ≤ ·) l) (h0 : 0 ∈ l) :
    ∃ t, l = 0 :: t := by
  cases l with
  | nil => simp at h0
  | cons x t =>
    rcases List.mem_cons.mp h0 with hx | hx
    · exact ⟨t, by rw [← hx]⟩
    · have hle := (List.sorted_cons.mp hs).1 0 hx
      exact ⟨t, by rw [Nat.le_zero.mp hle]⟩

theorem sorted_getLast_eq {z : ℕ} :
    ∀ {l : List ℕ}, List.Sorted (· ≤ ·) l → z ∈ l → (∀ x ∈ l, x ≤ z) →
      l.getLast? = some z := by
  intro l
  induction l with
  | nil => intro _ hz; simp at hz
  | cons x t ih =>
    intro hs hz hub
    cases t with
    | nil =>
      have : z = x := by simpa using hz
      simp [this]
    | cons y t' =>
      rw [List.getLast?_cons_cons]
      refine ih (List.sorted_cons.mp hs).2 ?_
        (fun a ha => hub a (List.mem_cons_of_mem _ ha))
      rcases List.mem_cons.mp hz with hx | hx
      · have hxy : x ≤ y := (List.sorted_cons.mp hs).1 y (List.mem_cons_self _ _)
        have hyz : y ≤ z := hub y (List.mem_cons_of_mem _ (List.mem_cons_self _ _))
        have hyzeq : y = z := le_antisymm hyz (hx ▸ hxy)
        exact hyzeq ▸ List.mem_cons_self _ _
      · exact hx

/-- On a text whose whole estimated token count stays within `maxS`, the
chunking loop never closes a chunk: every accumulated potential chunk is a
prefix of the text, so the loop just concatenates the segments. -/
theorem chunkFold_no_emit (maxS : ℕ) (pct : ℚ) (text : List Char)
    (hEst : estimate_tokens text ≤ maxS) :
    ∀ (bs : List ℕ) (a : ℕ), List.Chain' (· ≤ ·) (a :: bs) →
      (∀ x ∈ a :: bs, x ≤ text.length) → ∀ (z : ℕ), (a :: bs).getLast? = some z →
      ∀ (chs : List Chunk) (s0 : ℕ),
        (segmentsB text (a :: bs)).foldl (chunkStep maxS pct) ⟨chs, s0, text.take a⟩ =
          ⟨chs, s0, text.take z⟩ := by
  intro bs
  induction bs with
  | nil =>
    intro a _ _ z hz chs s0
    have hza : z = a := by simpa using hz.symm
    rw [show segmentsB text [a] = [] from rfl, List.foldl_nil, hza]
  | cons b rest ih =>
    intro a hchain hbound z hz chs s0
    rw [show segmentsB text (a :: b :: rest) =
        (a, (text.drop a).take (b - a)) :: segmentsB text (b :: rest) from rfl]
    rw [List.foldl_cons]
    have hab : a ≤ b := (List.chain'_cons.mp hchain).1
    have hpot : text.take a ++ (text.drop a).take (b - a) = text.take b := by
      rw [← List.take_add, Nat.add_sub_cancel' hab]
    have hle : estimate_tokens (text.take b) ≤ maxS := by
      refine le_trans (Nat.div_le_div_right ?_) hEst
      rw [List.length_take]
      exact min_le_right _ _
    have hstep : chunkStep maxS pct ⟨chs, s0, text.take a⟩
        (a, (text.drop a).take (b - a)) = ⟨chs, s0, text.take b⟩ := by
      unfold chunkStep
      dsimp only
      rw [hpot, if_neg (not_lt.mpr hle)]
    rw [hstep]
    exact ih b (List.chain'_cons.mp hchain).2
      (fun x hx => hbound x (List.mem_cons_of_mem _ hx)) z
      (by rw [← List.getLast?_cons_cons (l := rest) (a := a) (b := b)]; exact hz) chs s0

/-- C9 (amended): for the rag_precision chunker, every text whose estimated
token count is below `min_chunk_size` (with a coherent `min ≤ max`
configuration) and whose strip is non-blank yields exactly one chunk — the
whole stripped input.  (The original claim fails for blank inputs and for
the load_kb_enhanced chunker, which returns no chunk at all on short
inputs; see the counterexample.) -/
theorem C9_small_input_single_chunk (minS maxS : ℕ) (pct : ℚ) (text : List Char)
    (h1 : estimate_tokens text < minS) (h2 : minS ≤ maxS) (h3 : strip text ≠ []) :
    chunk minS maxS pct text =
      [⟨strip text, 0, text.length, estimate_tokens text⟩] := by
  have hEst : estimate_tokens text ≤ maxS := le_of_lt (lt_of_lt_of_le h1 h2)
  obtain ⟨t, hbs⟩ := sorted_head_zero (boundaries_sorted text) (zero_mem_boundaries text)
  have hchain : List.Chain' (· ≤ ·) (find_semantic_boundaries text) :=
    (boundaries_sorted text).chain'
  have hlast : (find_semantic_boundaries text).getLast? = some text.length :=
    sorted_getLast_eq (boundaries_sorted text) (len_mem_boundaries text)
      (boundaries_le text)
  unfold chunk
  rw [hbs] at hchain hlast ⊢
  rw [show (⟨[], 0, []⟩ : CState) = ⟨[], 0, text.take 0⟩ from rfl]
  rw [chunkFold_no_emit maxS pct text hEst t 0 hchain
    (fun x hx => boundaries_le text x (hbs ▸ hx)) text.length hlast [] 0]
  rw [List.take_length]
  unfold chunkFinal
  rw [if_pos h3]
  rfl

/-- Witness for C9 (amended): "Hello world." with min 10 / max 20 estimated
tokens (estimate 3 < 10) yields exactly the one whole chunk. -/
theorem C9_witness :
    estimate_tokens "Hello world.".data < 10 ∧
    chunk 10 20 (3/20) "Hello world.".data =
      [⟨strip "Hello world.".data, 0, ("Hello world.".data).length,
        estimate_tokens "Hello world.".data⟩] :=
  ⟨by with_unfolding_all decide,
    C9_small_input_single_chunk 10 20 (3/20) "Hello world.".data
      (by with_unfolding_all decide) (by norm_num) (by with_unfolding_all decide)⟩

/-- C9 counterexample: (a) the load_kb_enhanced chunker returns *zero*
chunks for the non-empty input "Hi" shorter than min_size 100, not one;
(b) the rag_precision chunker returns zero chunks for the non-empty
whitespace-only input " ". -/
theorem C9_counterexample_short_input :
    semantic_chunk "Hi".data 200 100 20 = [] ∧
    chunk 300 600 (3/20) " ".data = [] := by
  refine ⟨?_, ?_⟩ <;> with_unfolding_all decide
